import Mathlib

/-!
Shallow embedding of the duplicate-detection service
(`backend/app/services/duplicate_detector.py` of the cocktail-app
repository) together with proofs about the specification claims.

Modelling conventions:
* Python `str` is `String`; `bytes` is `List Nat` (byte values 0..255).
* Python `float` recipe amounts are modelled as decimal rationals `ℚ`;
  `pyFloatStr` reproduces `str(float)` for the plain decimal values
  that occur as ingredient amounts (shortest decimal form with at
  least one fractional digit: `2.0`, `0.75`, `0.025`, ...).
* Python `Optional[T]` is `Option T`; Python truthiness of strings,
  lists and floats is modelled explicitly wherever the source uses it.
* The SQLAlchemy store is a `List Recipe` of persisted signature rows
  (column types from the `add_duplicate_detection_hashes` migration);
  `query.first()` is `List.head?`, query filters are `List.filter`.
* `hashlib.md5` is implemented bit-faithfully (RFC 1321) over the
  UTF-8 bytes, so recipe fingerprints are genuine 32-hex-digit MD5s.
* `imagehash.hex_to_hash` plus `ImageHash` subtraction is modelled by
  parsing hex to `Nat` and taking the popcount of the xor, which is
  the Hamming distance the library computes for equal-length hashes.
* The PIL/imagehash image decoding in `ImageHashes.from_image_data`
  is an external library call, passed in as a function parameter.
* Recursions are written with explicit fuel so that every definition
  unfolds by kernel reduction (`decide` / `rfl` on closed inputs).
-/

namespace CocktailDup

/-! ### Python string primitives -/

/-- The characters removed by Python `str.strip()` (ASCII fragment). -/
def isPySpace (c : Char) : Bool :=
  c = ' ' || c = '\t' || c = '\n' || c = '\r' || c = '\x0b' || c = '\x0c'

/-- Python `str.lower()` (ASCII fragment, via `Char.toLower`). -/
def pyLower (s : String) : String := ⟨s.data.map Char.toLower⟩

/-- Python `str.strip()`: drop leading and trailing whitespace. -/
def pyStrip (s : String) : String :=
  ⟨((s.data.dropWhile isPySpace).reverse.dropWhile isPySpace).reverse⟩

/-- `x.lower().strip()`, the normalization applied to recipe names and
    ingredient names in `compute_recipe_fingerprint`. -/
def normName (s : String) : String := pyStrip (pyLower s)

/-- Python truthiness of an `Optional[str]`: `None` and `""` are falsy. -/
def pyTruthyStr : Option String → Bool
  | none => false
  | some s => s ≠ ""

/-! ### `str(float)` for decimal amounts -/

/-- Digit character for `0 ≤ d ≤ 9`. -/
def digitChar (d : Nat) : Char := Char.ofNat (48 + d)

/-- Decimal digit list of `n`, most significant digit first
    (fuel-based so the kernel can evaluate it; empty for `n = 0`). -/
def natDigitsAux : Nat → Nat → List Char
  | 0, _ => []
  | fuel + 1, n =>
    if n = 0 then [] else natDigitsAux fuel (n / 10) ++ [digitChar (n % 10)]

/-- Decimal digit string of a natural number. -/
def natStr (n : Nat) : String := if n = 0 then "0" else ⟨natDigitsAux n n⟩

/-- Multiplicity of `p` in `n` (fuel-based, 0 for `p < 2` or `n = 0`). -/
def pFactorAux : Nat → Nat → Nat → Nat
  | 0, _, _ => 0
  | fuel + 1, p, n =>
    if 2 ≤ p ∧ 0 < n ∧ n % p = 0 then 1 + pFactorAux fuel p (n / p) else 0

def pFactor (p n : Nat) : Nat := pFactorAux n p n

/-- Number of fractional digits `str(float)` prints for a decimal
    value: the minimal `k ≥ 1` with `q * 10 ^ k` integral (for the
    decimal-denominator rationals that stand for float amounts). -/
def decExp (q : ℚ) : Nat := max (max (pFactor 2 q.den) (pFactor 5 q.den)) 1

/-- Fixed-width decimal rendering of `r < 10 ^ k` with exactly `k`
    digits (zero padded on the left). -/
def fracDigits : Nat → Nat → List Char
  | 0, _ => []
  | k + 1, r => fracDigits k (r / 10) ++ [digitChar (r % 10)]

/-- `str(float)` on decimal amounts: sign, integer digits, `.`, and
    exactly `decExp q` fractional digits, reproducing Python's
    shortest repr (`2 ↦ "2.0"`, `3/4 ↦ "0.75"`, `1/40 ↦ "0.025"`). -/
def pyFloatStr (q : ℚ) : String :=
  (if q < 0 then "-" else "") ++
    natStr (q.num.natAbs * 10 ^ decExp q / q.den / 10 ^ decExp q) ++ "." ++
    ⟨fracDigits (decExp q) (q.num.natAbs * 10 ^ decExp q / q.den % 10 ^ decExp q)⟩

/-- The f-string fragment `{ing[1] or ''}` of the source: `None` and
    the falsy float `0.0` both print as the empty string. -/
def pyAmountStr : Option ℚ → String
  | none => ""
  | some q => if q = 0 then "" else pyFloatStr q

/-- The fragment `{(ing[2] or '').lower()}`: note the unit is
    lowercased but not stripped of whitespace. -/
def pyUnitStr (u : Option String) : String := pyLower (u.getD "")

/-! ### Recipe fingerprint (pre-hash data string) -/

/-- An extracted ingredient tuple `(name, amount, unit)`. -/
abbrev Ingredient := String × Option ℚ × Option String

/-- The normalized `name:amount:unit` component built per ingredient. -/
def ingComponent (i : Ingredient) : String :=
  normName i.1 ++ ":" ++ pyAmountStr i.2.1 ++ ":" ++ pyUnitStr i.2.2

/-- Code-point lexicographic `≤` on character lists: the order Python
    uses to compare strings (executable, kernel-reducible). -/
def charListLe : List Char → List Char → Bool
  | [], _ => true
  | _ :: _, [] => false
  | a :: as, b :: bs =>
    if a.toNat < b.toNat then true
    else if b.toNat < a.toNat then false
    else charListLe as bs

/-- The string order used by Python `sorted`. -/
def strLe (a b : String) : Prop := charListLe a.data b.data = true

instance : DecidableRel strLe :=
  fun a b => Bool.decEq (charListLe a.data b.data) true

/-- Components of the ingredients whose raw name is truthy (non-empty),
    sorted lexicographically as Python `sorted` does. -/
def sortedComponents (ingredients : List Ingredient) : List String :=
  List.insertionSort strLe ((ingredients.filter (fun i => i.1 ≠ "")).map ingComponent)

/-- Python `sep.join(l)` (structural, kernel-reducible). -/
def pyJoin (sep : String) : List String → String
  | [] => ""
  | [a] => a
  | a :: rest => a ++ sep ++ pyJoin sep rest

/-- The string that `compute_recipe_fingerprint` feeds to MD5
    (source line 124). -/
def fingerprint_data (name : String) (ingredients : List Ingredient) : String :=
  normName name ++ "|" ++ pyJoin "|" (sortedComponents ingredients)

/-! ### MD5 (RFC 1321), bit-faithful, over UTF-8 bytes -/

/-- UTF-8 encoding of one unicode code point. -/
def utf8EncodeChar (n : Nat) : List Nat :=
  if n < 128 then [n]
  else if n < 2048 then [192 + n / 64, 128 + n % 64]
  else if n < 65536 then [224 + n / 4096, 128 + n / 64 % 64, 128 + n % 64]
  else [240 + n / 262144, 128 + n / 4096 % 64, 128 + n / 64 % 64, 128 + n % 64]

/-- Python `str.encode()`: the UTF-8 bytes of a string. -/
def utf8Bytes (s : String) : List Nat :=
  s.data.foldr (fun c acc => utf8EncodeChar c.toNat ++ acc) []

/-- The 64 MD5 round constants `floor(2^32 * abs(sin(i+1)))`. -/
def md5K : List Nat :=
  [3614090360, 3905402710, 606105819, 3250441966, 4118548399, 1200080426,
   2821735955, 4249261313, 1770035416, 2336552879, 4294925233, 2304563134,
   1804603682, 4254626195, 2792965006, 1236535329, 4129170786, 3225465664,
   643717713, 3921069994, 3593408605, 38016083, 3634488961, 3889429448,
   568446438, 3275163606, 4107603335, 1163531501, 2850285829, 4243563512,
   1735328473, 2368359562, 4294588738, 2272392833, 1839030562, 4259657740,
   2763975236, 1272893353, 4139469664, 3200236656, 681279174, 3936430074,
   3572445317, 76029189, 3654602809, 3873151461, 530742520, 3299628645,
   4096336452, 1126891415, 2878612391, 4237533241, 1700485571, 2399980690,
   4293915773, 2240044497, 1873313359, 4264355552, 2734768916, 1309151649,
   4149444226, 3174756917, 718787259, 3951481745]

/-- The 64 MD5 per-round left-rotation amounts. -/
def md5S : List Nat :=
  [7, 12, 17, 22, 7, 12, 17, 22, 7, 12, 17, 22, 7, 12, 17, 22,
   5, 9, 14, 20, 5, 9, 14, 20, 5, 9, 14, 20, 5, 9, 14, 20,
   4, 11, 16, 23, 4, 11, 16, 23, 4, 11, 16, 23, 4, 11, 16, 23,
   6, 10, 15, 21, 6, 10, 15, 21, 6, 10, 15, 21, 6, 10, 15, 21]

/-- Left rotation of a 32-bit word. -/
def rotl32 (x c : Nat) : Nat :=
  ((x <<< c) % 4294967296) ||| ((x % 4294967296) >>> (32 - c))

/-- Little-endian 32-bit words from a list of bytes (4 at a time). -/
def leWords : List Nat → List Nat
  | b0 :: b1 :: b2 :: b3 :: rest =>
    (b0 + 256 * b1 + 65536 * b2 + 16777216 * b3) :: leWords rest
  | _ => []

/-- The 8 little-endian bytes of a 64-bit length value. -/
def leBytes8 (n : Nat) : List Nat :=
  [n % 256, n / 256 % 256, n / 65536 % 256, n / 16777216 % 256,
   n / 4294967296 % 256, n / 1099511627776 % 256,
   n / 281474976710656 % 256, n / 72057594037927936 % 256]

/-- MD5 padding: `0x80`, zeros to 56 mod 64, 8-byte LE bit length. -/
def md5Pad (msg : List Nat) : List Nat :=
  msg ++ [128] ++ List.replicate ((119 - msg.length % 64) % 64) 0 ++
    leBytes8 ((8 * msg.length) % 18446744073709551616)

/-- Split into 64-byte chunks (fuel-based). -/
def chunks64Aux : Nat → List Nat → List (List Nat)
  | 0, _ => []
  | _ + 1, [] => []
  | fuel + 1, l => l.take 64 :: chunks64Aux fuel (l.drop 64)

def chunks64 (l : List Nat) : List (List Nat) := chunks64Aux l.length l

/-- The MD5 nonlinear function for round `i` (`~x` is `2^32-1-x`). -/
def md5F (i b c d : Nat) : Nat :=
  if i < 16 then (b &&& c) ||| ((4294967295 - b) &&& d)
  else if i < 32 then (d &&& b) ||| ((4294967295 - d) &&& c)
  else if i < 48 then b ^^^ c ^^^ d
  else c ^^^ (b ||| (4294967295 - d))

/-- The MD5 message-word index for round `i`. -/
def md5G (i : Nat) : Nat :=
  if i < 16 then i
  else if i < 32 then (5 * i + 1) % 16
  else if i < 48 then (3 * i + 5) % 16
  else (7 * i) % 16

/-- One MD5 round on the state `(a, b, c, d)`. -/
def md5Round (M : List Nat) (st : Nat × Nat × Nat × Nat) (i : Nat) :
    Nat × Nat × Nat × Nat :=
  match st with
  | (a, b, c, d) =>
    let f := (md5F i b c d + a + md5K.getD i 0 + M.getD (md5G i) 0) % 4294967296
    (d, (b + rotl32 f (md5S.getD i 0)) % 4294967296, b, c)

/-- Process one 64-byte chunk. -/
def md5Chunk (st : Nat × Nat × Nat × Nat) (chunk : List Nat) :
    Nat × Nat × Nat × Nat :=
  match (List.range 64).foldl (md5Round (leWords chunk)) st, st with
  | (a1, b1, c1, d1), (a, b, c, d) =>
    ((a + a1) % 4294967296, (b + b1) % 4294967296,
     (c + c1) % 4294967296, (d + d1) % 4294967296)

/-- Lowercase hex digit. -/
def hexChar (d : Nat) : Char :=
  if d < 10 then Char.ofNat (48 + d) else Char.ofNat (87 + d)

/-- Two hex digits of a byte. -/
def byteHex (b : Nat) : List Char := [hexChar (b / 16 % 16), hexChar (b % 16)]

/-- Hex of a 32-bit word, least significant byte first. -/
def wordHexLE (w : Nat) : List Char :=
  byteHex (w % 256) ++ byteHex (w / 256 % 256) ++
    byteHex (w / 65536 % 256) ++ byteHex (w / 16777216 % 256)

/-- `hashlib.md5(msg).hexdigest()` on a byte list. -/
def md5Bytes (msg : List Nat) : String :=
  match (chunks64 (md5Pad msg)).foldl md5Chunk
      (1732584193, 4023233417, 2562383102, 271733878) with
  | (a, b, c, d) => ⟨wordHexLE a ++ wordHexLE b ++ wordHexLE c ++ wordHexLE d⟩

/-- `hashlib.md5(s.encode()).hexdigest()`. -/
def md5Hex (s : String) : String := md5Bytes (utf8Bytes s)

/-- `compute_recipe_fingerprint` (source lines 100-125): the MD5 of the
    normalized fingerprint data string. -/
def compute_recipe_fingerprint (name : String) (ingredients : List Ingredient) :
    String :=
  md5Hex (fingerprint_data name ingredients)

/-! ### Data model -/

/-- Persisted recipe signature row: the columns of the `recipes` table
    read by the detector (types from the `add_duplicate_detection_hashes`
    migration; all three hash columns are nullable). -/
structure Recipe where
  id : String
  name : String
  image_content_hash : Option String
  image_perceptual_hash : Option String
  recipe_fingerprint : Option String
deriving DecidableEq

/-- `DuplicateMatch` dataclass (confidence as exact rational). -/
structure DuplicateMatch where
  recipe_id : String
  recipe_name : String
  match_type : String
  confidence : ℚ
  details : String
deriving DecidableEq

/-- `DuplicateCheckResult` dataclass (`matches` is a Lean keyword, so
    the field is written `«matches»`). -/
structure DuplicateCheckResult where
  is_duplicate : Bool
  «matches» : List DuplicateMatch
deriving DecidableEq

/-- The `best_match` property: Python `max(matches, key=confidence)`
    (first maximum), `None` on an empty list. -/
def DuplicateCheckResult.best_match (r : DuplicateCheckResult) : Option DuplicateMatch :=
  match r.«matches» with
  | [] => none
  | m :: ms => some (ms.foldl (fun best x => if best.confidence < x.confidence then x else best) m)

/-- `ImageHashes` dataclass. -/
structure ImageHashes where
  content_hash : String
  perceptual_hash : String
deriving DecidableEq

/-- `PHASH_SIMILARITY_THRESHOLD = 10` (source line 68). -/
def PHASH_SIMILARITY_THRESHOLD : Nat := 10

/-! ### Perceptual-hash Hamming distance -/

/-- Value of a hex digit (as `int(hexstr, 16)` reads it). -/
def hexDigitVal (c : Char) : Nat :=
  if 48 ≤ c.toNat ∧ c.toNat ≤ 57 then c.toNat - 48
  else if 97 ≤ c.toNat ∧ c.toNat ≤ 102 then c.toNat - 87
  else if 65 ≤ c.toNat ∧ c.toNat ≤ 70 then c.toNat - 55
  else 0

/-- `int(hexstr, 16)`: the bit pattern `imagehash.hex_to_hash` parses. -/
def hexVal (s : String) : Nat := s.data.foldl (fun a c => 16 * a + hexDigitVal c) 0

/-- Population count (fuel-based). -/
def popCountAux : Nat → Nat → Nat
  | 0, _ => 0
  | fuel + 1, n => if n = 0 then 0 else n % 2 + popCountAux fuel (n / 2)

def popCount (n : Nat) : Nat := popCountAux n n

/-- `hex_to_hash(a) - hex_to_hash(b)`: the number of differing bits,
    i.e. the popcount of the xor of the parsed bit patterns. -/
def phash_hamming (a b : String) : Nat := popCount (hexVal a ^^^ hexVal b)

/-- A well-formed stored pHash string: 16 hex characters (64 bits). -/
def isHexDigit (c : Char) : Bool :=
  (48 ≤ c.toNat && c.toNat ≤ 57) || (97 ≤ c.toNat && c.toNat ≤ 102) ||
    (65 ≤ c.toNat && c.toNat ≤ 70)

def isHex16 (s : String) : Bool := s.data.length == 16 && s.data.all isHexDigit

/-! ### The three lookup strategies -/

/-- `if exclude_recipe_id: query = query.filter(Recipe.id != ...)`.
    Python truthiness: `None` and the empty string apply no filter. -/
def excludeFilter (exclude_recipe_id : Option String) (rows : List Recipe) :
    List Recipe :=
  match exclude_recipe_id with
  | some e => if e = "" then rows else rows.filter (fun r => r.id ≠ e)
  | none => rows

/-- `check_exact_duplicate` (source lines 128-147). -/
def check_exact_duplicate (db : List Recipe) (content_hash : String)
    (exclude_recipe_id : Option String) : Option DuplicateMatch :=
  ((excludeFilter exclude_recipe_id
      (db.filter (fun r => r.image_content_hash == some content_hash))).head?).map
    (fun m => ⟨m.id, m.name, "exact_image", 1, "Identical image file detected"⟩)

/-- `_stream_perceptual_hashes` (source lines 150-168): `(id, name,
    perceptual_hash)` rows having a non-null perceptual hash, minus the
    excluded id.  (The `yield_per` batching affects only memory use,
    not which rows are produced.) -/
def stream_perceptual_hashes (db : List Recipe) (exclude_recipe_id : Option String) :
    List (String × String × String) :=
  (excludeFilter exclude_recipe_id
      (db.filter (fun r => r.image_perceptual_hash.isSome))).filterMap
    (fun r => r.image_perceptual_hash.map (fun h => (r.id, r.name, h)))

/-- `1.0 - (distance / 64.0)` as one exact rational (`mkRat` so the
    kernel evaluates it). -/
def similar_confidence (distance : Nat) : ℚ := mkRat (64 - (distance : Int)) 64

/-- `reverse=True` comparison for `sort(key=confidence)`: descending by
    confidence, equal keys stable. -/
def confGe (a b : DuplicateMatch) : Prop := b.confidence ≤ a.confidence

instance : DecidableRel confGe :=
  fun a b => inferInstanceAs (Decidable (b.confidence ≤ a.confidence))

/-- `check_similar_images` (source lines 171-205). -/
def check_similar_images (db : List Recipe) (perceptual_hash : String)
    (threshold : Nat) (exclude_recipe_id : Option String) (max_matches : Nat) :
    List DuplicateMatch :=
  let raw := (stream_perceptual_hashes db exclude_recipe_id).filterMap
    (fun row =>
      let distance := phash_hamming perceptual_hash row.2.2
      if distance ≤ threshold then
        some ⟨row.1, row.2.1, "similar_image", similar_confidence distance,
              "Visually similar image (hamming distance: " ++ natStr distance ++ ")"⟩
      else none)
  (List.insertionSort confGe raw).take max_matches

/-- `check_recipe_fingerprint` (source lines 208-227); `0.95 = 19/20`. -/
def check_recipe_fingerprint (db : List Recipe) (fingerprint : String)
    (exclude_recipe_id : Option String) : Option DuplicateMatch :=
  ((excludeFilter exclude_recipe_id
      (db.filter (fun r => r.recipe_fingerprint == some fingerprint))).head?).map
    (fun m => ⟨m.id, m.name, "same_recipe", mkRat 19 20,
               "Same recipe name and ingredients (possibly from different source)"⟩)

/-! ### `check_for_duplicates` -/

def optMatchList : Option DuplicateMatch → List DuplicateMatch
  | some m => [m]
  | none => []

/-- The list `matches` accumulated by `check_for_duplicates` before
    dedup and sort (source lines 252-276); the fingerprint strategy
    runs only under Python-truthy `recipe_name and ingredients`. -/
def gather_matches (db : List Recipe) (hashes : ImageHashes)
    (recipe_name : Option String) (ingredients : Option (List Ingredient))
    (exclude_recipe_id : Option String) : List DuplicateMatch :=
  optMatchList (check_exact_duplicate db hashes.content_hash exclude_recipe_id)
  ++ check_similar_images db hashes.perceptual_hash PHASH_SIMILARITY_THRESHOLD
      exclude_recipe_id 10
  ++ (match recipe_name, ingredients with
      | some n, some ings =>
        if n = "" ∨ ings = [] then []
        else optMatchList (check_recipe_fingerprint db
          (compute_recipe_fingerprint n ings) exclude_recipe_id)
      | _, _ => [])

/-- One step of the dedup loop (source lines 279-282): Python dict
    semantics - a new key appends, an update keeps the dict position. -/
def insertMatch (seen : List (String × DuplicateMatch)) (m : DuplicateMatch) :
    List (String × DuplicateMatch) :=
  match seen.find? (fun p => p.1 == m.recipe_id) with
  | none => seen ++ [(m.recipe_id, m)]
  | some p =>
    if p.2.confidence < m.confidence then
      seen.map (fun q => if q.1 = m.recipe_id then (m.recipe_id, m) else q)
    else seen

/-- `seen_recipes` after the dedup loop. -/
def dedup_matches (ms : List DuplicateMatch) : List (String × DuplicateMatch) :=
  ms.foldl insertMatch []

/-- Lines 254-258: use precomputed hashes when supplied, otherwise
    compute them once from the image bytes. -/
def resolveHashes (fromImage : List Nat → ImageHashes) (image_data : List Nat)
    (precomputed_hashes : Option ImageHashes) : ImageHashes :=
  match precomputed_hashes with
  | some h => h
  | none => fromImage image_data

/-- `check_for_duplicates` (source lines 230-289).  `fromImage` stands
    for the external `ImageHashes.from_image_data` (PIL + imagehash);
    it is only invoked when no precomputed hashes are supplied. -/
def check_for_duplicates (fromImage : List Nat → ImageHashes) (db : List Recipe)
    (image_data : List Nat) (recipe_name : Option String)
    (ingredients : Option (List Ingredient)) (exclude_recipe_id : Option String)
    (precomputed_hashes : Option ImageHashes) : DuplicateCheckResult :=
  let unique_matches := List.insertionSort confGe
    ((dedup_matches (gather_matches db
        (resolveHashes fromImage image_data precomputed_hashes)
        recipe_name ingredients exclude_recipe_id)).map (fun p => p.2))
  ⟨decide (0 < unique_matches.length), unique_matches⟩

/-! ### LRU cache for perceptual hashes -/

/-- `_HASH_CACHE_SIZE = 128` (source line 72). -/
def HASH_CACHE_SIZE : Nat := 128

/-- State of the `functools.lru_cache` wrapping
    `_cached_perceptual_hash`: entries most-recent-first, keyed by
    `(content_hash, image_data)`. -/
structure CacheState where
  entries : List ((String × List Nat) × String)
deriving DecidableEq

/-- `_cached_perceptual_hash` (source lines 75-83) together with the
    `lru_cache` machinery: on a hit the entry moves to the front, on a
    miss the computed value is inserted and the least recently used
    entry beyond the capacity is dropped.  `phash` stands for the
    external `imagehash.phash(Image.open(...))` computation. -/
def cacheKeyMatch (content_hash : String) (image_data : List Nat)
    (e : (String × List Nat) × String) : Bool :=
  e.1.1 == content_hash && e.1.2 == image_data

def cached_perceptual_hash (phash : List Nat → String) (st : CacheState)
    (content_hash : String) (image_data : List Nat) : String × CacheState :=
  match st.entries.find? (cacheKeyMatch content_hash image_data) with
  | some e => (e.2, ⟨((content_hash, image_data), e.2) ::
      st.entries.filter (fun e2 => !cacheKeyMatch content_hash image_data e2)⟩)
  | none => (phash image_data,
      ⟨((content_hash, image_data), phash image_data) ::
        st.entries.take (HASH_CACHE_SIZE - 1)⟩)

/-- `compute_perceptual_hash` (source lines 91-97); `sha256` stands for
    the external `hashlib.sha256(...).hexdigest()` content hash. -/
def compute_perceptual_hash (sha256 phash : List Nat → String) (st : CacheState)
    (image_data : List Nat) : String × CacheState :=
  cached_perceptual_hash phash st (sha256 image_data) image_data

/-- `clear_hash_cache` (source lines 320-325). -/
def clear_hash_cache (_st : CacheState) : CacheState := ⟨[]⟩

/-! ### Properties of the string order used by the component sort -/

theorem char_toNat_inj {a b : Char} (h : a.toNat = b.toNat) : a = b :=
  Char.eq_of_val_eq (UInt32.ext h)

theorem charListLe_total : ∀ as bs : List Char,
    charListLe as bs = true ∨ charListLe bs as = true := by
  intro as
  induction as with
  | nil => intro bs; exact Or.inl rfl
  | cons a as ih =>
    intro bs
    cases bs with
    | nil => exact Or.inr rfl
    | cons b bs =>
      simp only [charListLe]
      by_cases h1 : a.toNat < b.toNat
      · simp [h1]
      · by_cases h2 : b.toNat < a.toNat
        · simp [h1, h2]
        · simpa [h1, h2] using ih bs

theorem charListLe_trans : ∀ as bs cs : List Char,
    charListLe as bs = true → charListLe bs cs = true →
    charListLe as cs = true := by
  intro as
  induction as with
  | nil => intro bs cs h1 h2; rfl
  | cons a as ih =>
    intro bs cs h1 h2
    cases bs with
    | nil => simp [charListLe] at h1
    | cons b bs =>
      cases cs with
      | nil => simp [charListLe] at h2
      | cons c cs =>
        simp only [charListLe] at h1 h2 ⊢
        by_cases hab : a.toNat < b.toNat
        · by_cases hbc : b.toNat < c.toNat
          · simp [show a.toNat < c.toNat by omega]
          · by_cases hcb : c.toNat < b.toNat
            · simp [hbc, hcb] at h2
            · simp [show a.toNat < c.toNat by omega]
        · by_cases hba : b.toNat < a.toNat
          · simp [hab, hba] at h1
          · by_cases hbc : b.toNat < c.toNat
            · simp [show a.toNat < c.toNat by omega]
            · by_cases hcb : c.toNat < b.toNat
              · simp [hbc, hcb] at h2
              · simp only [hab, hba, if_neg] at h1
                simp only [hbc, hcb, if_neg] at h2
                have hac : ¬ a.toNat < c.toNat := by omega
                have hca : ¬ c.toNat < a.toNat := by omega
                simp only [hac, hca, if_neg, if_false, ite_false]
                simpa [hab, hba, hbc, hcb] using ih bs cs (by simpa [hab, hba] using h1)
                  (by simpa [hbc, hcb] using h2)

theorem charListLe_antisymm : ∀ as bs : List Char,
    charListLe as bs = true → charListLe bs as = true → as = bs := by
  intro as
  induction as with
  | nil =>
    intro bs h1 h2
    cases bs with
    | nil => rfl
    | cons b bs => simp [charListLe] at h2
  | cons a as ih =>
    intro bs h1 h2
    cases bs with
    | nil => simp [charListLe] at h1
    | cons b bs =>
      simp only [charListLe] at h1 h2
      by_cases hab : a.toNat < b.toNat
      · simp [show ¬ b.toNat < a.toNat by omega, hab] at h2
      · by_cases hba : b.toNat < a.toNat
        · simp [hab, hba] at h1
        · have hEq : a = b := char_toNat_inj (by omega)
          subst hEq
          simp only [hab, hba, if_neg, ite_false] at h1 h2
          rw [ih bs (by simpa [hab, hba] using h1) (by simpa [hab, hba] using h2)]

instance : IsTotal String strLe := ⟨fun a b => charListLe_total a.data b.data⟩

instance : IsTrans String strLe :=
  ⟨fun a b c h1 h2 => charListLe_trans a.data b.data c.data h1 h2⟩

instance : IsAntisymm String strLe :=
  ⟨fun a b h1 h2 => String.ext (charListLe_antisymm a.data b.data h1 h2)⟩

instance : IsTotal DuplicateMatch confGe :=
  ⟨fun a b => le_total b.confidence a.confidence⟩

instance : IsTrans DuplicateMatch confGe :=
  ⟨fun _ _ _ h1 h2 => le_trans h2 h1⟩

/-! ### Permutation invariance of the fingerprint (claim C2) -/

theorem sortedComponents_perm {l₁ l₂ : List Ingredient} (h : l₁.Perm l₂) :
    sortedComponents l₁ = sortedComponents l₂ := by
  refine List.eq_of_perm_of_sorted ?_ (List.sorted_insertionSort strLe _)
    (List.sorted_insertionSort strLe _)
  exact ((List.perm_insertionSort strLe _).trans
    ((h.filter _).map ingComponent)).trans (List.perm_insertionSort strLe _).symm

theorem fingerprint_data_perm (name : String) {l₁ l₂ : List Ingredient}
    (h : l₁.Perm l₂) : fingerprint_data name l₁ = fingerprint_data name l₂ := by
  unfold fingerprint_data
  rw [sortedComponents_perm h]

/-! ### Case/whitespace behaviour of the fingerprint (claim C3) -/

/-- Two ingredient tuples that the normalization of
    `compute_recipe_fingerprint` cannot distinguish: names both empty
    or both non-empty with the same lowercased-stripped form, equal
    amounts, and units with the same lowercased form. -/
def ingCaseWsEquiv (i₁ i₂ : Ingredient) : Prop :=
  ((i₁.1 = "" ∧ i₂.1 = "") ∨ (i₁.1 ≠ "" ∧ i₂.1 ≠ "" ∧ normName i₁.1 = normName i₂.1))
  ∧ i₁.2.1 = i₂.2.1 ∧ pyUnitStr i₁.2.2 = pyUnitStr i₂.2.2

theorem components_eq_of_equiv : ∀ {l₁ l₂ : List Ingredient},
    List.Forall₂ ingCaseWsEquiv l₁ l₂ →
    (l₁.filter (fun i => i.1 ≠ "")).map ingComponent =
      (l₂.filter (fun i => i.1 ≠ "")).map ingComponent := by
  intro l₁ l₂ h
  induction h with
  | nil => rfl
  | cons hp _hl ih =>
    rename_i i₁ i₂ t₁ t₂
    rcases hp with ⟨hname, hamt, hunit⟩
    rcases hname with ⟨h1, h2⟩ | ⟨h1, h2, h3⟩
    · simpa [List.filter, h1, h2] using ih
    · have hcomp : ingComponent i₁ = ingComponent i₂ := by
        unfold ingComponent
        rw [h3, hamt, hunit]
      simpa [List.filter, h1, h2, hcomp] using ih

theorem fingerprint_case_ws {n₁ n₂ : String} {l₁ l₂ : List Ingredient}
    (hn : normName n₁ = normName n₂) (hl : List.Forall₂ ingCaseWsEquiv l₁ l₂) :
    compute_recipe_fingerprint n₁ l₁ = compute_recipe_fingerprint n₂ l₂ := by
  unfold compute_recipe_fingerprint fingerprint_data sortedComponents
  rw [hn, components_eq_of_equiv hl]

/-! ### Cross-checks of the MD5 embedding against reference digests -/

theorem md5Hex_rfc_vector_empty :
    md5Hex "" = "d41d8cd98f00b204e9800998ecf8427e" := by decide

theorem md5Hex_rfc_vector_abc :
    md5Hex "abc" = "900150983cd24fb0d6963f7d28e17f72" := by decide

/-- The Margarita fingerprint agrees with the digest produced by the
    Python implementation (`hashlib.md5` over the same data string). -/
theorem margarita_fingerprint_value :
    compute_recipe_fingerprint "Margarita"
      [("Tequila", some 2, some "oz"), ("Lime Juice", some 1, some "oz")] =
    "28c5ef0fe8c182762fc972c8e48ec5c0" := by decide

/-! ### Claim C2 -/

/-- C2: `compute_recipe_fingerprint` returns the same hex string on
    every permutation of the ingredient list; in particular the stored
    Margarita fingerprint equals the fingerprint of the same
    ingredients given in reversed order (witness below). -/
theorem claim_C2_fingerprint_permutation (name : String)
    (l₁ l₂ : List Ingredient) (h : l₁.Perm l₂) :
    compute_recipe_fingerprint name l₁ = compute_recipe_fingerprint name l₂ := by
  unfold compute_recipe_fingerprint
  rw [fingerprint_data_perm name h]

theorem claim_C2_fingerprint_permutation_witness :
    ([(("Tequila" : String), (some 2 : Option ℚ), (some "oz" : Option String)),
        ("Lime Juice", some 1, some "oz")].Perm
      [("Lime Juice", some 1, some "oz"), ("Tequila", some 2, some "oz")]) ∧
    compute_recipe_fingerprint "Margarita"
        [("Tequila", some 2, some "oz"), ("Lime Juice", some 1, some "oz")] =
      compute_recipe_fingerprint "Margarita"
        [("Lime Juice", some 1, some "oz"), ("Tequila", some 2, some "oz")] :=
  ⟨by decide, claim_C2_fingerprint_permutation "Margarita" _ _ (by decide)⟩

/-! ### Claim C3 -/

/-- C3 is false as stated: units are lowercased but not stripped of
    whitespace, so adding trailing whitespace to a unit changes the
    fingerprint. -/
theorem claim_C3_counterexample :
    compute_recipe_fingerprint "x" [("a", none, some "u")] ≠
      compute_recipe_fingerprint "x" [("a", none, some "u ")] := by decide

/-- C3 (amended): the fingerprint is invariant under case variation in
    the recipe name, the ingredient names and the units, and under
    leading/trailing-whitespace variation in the recipe name and in
    ingredient names as long as emptiness of the raw name is preserved
    (the source strips and lowercases names but only lowercases units,
    and drops an ingredient exactly when its raw name is empty). -/
theorem claim_C3_fingerprint_case_ws (n₁ n₂ : String) (l₁ l₂ : List Ingredient)
    (hn : normName n₁ = normName n₂) (hl : List.Forall₂ ingCaseWsEquiv l₁ l₂) :
    compute_recipe_fingerprint n₁ l₁ = compute_recipe_fingerprint n₂ l₂ :=
  fingerprint_case_ws hn hl

theorem claim_C3_fingerprint_case_ws_witness :
    normName " MARGARITA" = normName "margarita" ∧
    compute_recipe_fingerprint " MARGARITA" [("TEQUILA ", some 2, some "OZ")] =
      compute_recipe_fingerprint "margarita" [("tequila", some 2, some "oz")] :=
  ⟨by decide,
    claim_C3_fingerprint_case_ws " MARGARITA" "margarita"
      [("TEQUILA ", some 2, some "OZ")] [("tequila", some 2, some "oz")] (by decide)
      (List.Forall₂.cons
        ⟨Or.inr ⟨by decide, by decide, by decide⟩, by decide, by decide⟩
        List.Forall₂.nil)⟩

/-! ### Claim C9 -/

theorem md5Bytes_length (msg : List Nat) : (md5Bytes msg).length = 32 := by
  unfold md5Bytes
  split
  simp [String.length, wordHexLE, byteHex]

/-- C9: a Python-falsy `recipe_name` (empty string) or `ingredients`
    (empty list) skips the fingerprint strategy entirely, making the
    call equal to one with both set to `None` - even though
    `compute_recipe_fingerprint` is total and still yields a 32-hex
    name-only fingerprint on an empty ingredient list. -/
theorem claim_C9_falsy_extraction_skips_fingerprint
    (fromImage : List Nat → ImageHashes) (db : List Recipe) (image_data : List Nat)
    (recipe_name : Option String) (ingredients : Option (List Ingredient))
    (exclude_recipe_id : Option String) (precomputed_hashes : Option ImageHashes)
    (h : recipe_name = some "" ∨ ingredients = some []) :
    check_for_duplicates fromImage db image_data recipe_name ingredients
        exclude_recipe_id precomputed_hashes =
      check_for_duplicates fromImage db image_data none none
        exclude_recipe_id precomputed_hashes ∧
    ∀ n : String, (compute_recipe_fingerprint n []).length = 32 := by
  constructor
  · rcases h with h | h
    · subst h
      cases ingredients <;> simp [check_for_duplicates, gather_matches]
    · subst h
      cases recipe_name with
      | none => rfl
      | some n => simp [check_for_duplicates, gather_matches]
  · intro n
    exact md5Bytes_length _

theorem claim_C9_falsy_extraction_skips_fingerprint_witness :
    check_for_duplicates (fun _ => ⟨"h", "0000000000000000"⟩)
        [⟨"r1", "R", some "h", none, none⟩] [] (some "Margarita") (some [])
        none none =
      check_for_duplicates (fun _ => ⟨"h", "0000000000000000"⟩)
        [⟨"r1", "R", some "h", none, none⟩] [] none none none none ∧
    (compute_recipe_fingerprint "Margarita" []).length = 32 := by
  have h := claim_C9_falsy_extraction_skips_fingerprint
    (fun _ => ⟨"h", "0000000000000000"⟩) [⟨"r1", "R", some "h", none, none⟩] []
    (some "Margarita") (some []) none none (Or.inr rfl)
  exact ⟨h.1, h.2 "Margarita"⟩

/-! ### Bounds on the Hamming distance -/

theorem popCountAux_le : ∀ (fuel n k : Nat), n ≤ fuel → n < 2 ^ k →
    popCountAux fuel n ≤ k := by
  intro fuel
  induction fuel with
  | zero => intro n k _ _; exact Nat.zero_le k
  | succ fuel ih =>
    intro n k hn hk
    unfold popCountAux
    by_cases h0 : n = 0
    · simp [h0]
    · simp only [h0, if_false, ite_false]
      cases k with
      | zero => omega
      | succ k =>
        have h2 : 2 ^ (k + 1) = 2 * 2 ^ k := by ring
        have hdiv : n / 2 < 2 ^ k := by omega
        have hfuel : n / 2 ≤ fuel := by omega
        have := ih (n / 2) k hfuel hdiv
        omega

theorem popCount_le {n k : Nat} (h : n < 2 ^ k) : popCount n ≤ k :=
  popCountAux_le n n k (Nat.le_refl n) h

theorem hexDigitVal_lt (c : Char) : hexDigitVal c < 16 := by
  unfold hexDigitVal
  split
  · omega
  · split
    · omega
    · split <;> omega

theorem hexVal_foldl_lt : ∀ (l : List Char) (acc : Nat),
    List.foldl (fun a c => 16 * a + hexDigitVal c) acc l < (acc + 1) * 16 ^ l.length := by
  intro l
  induction l with
  | nil => intro acc; simp only [List.foldl_nil, List.length_nil, pow_zero, mul_one]; omega
  | cons c l ih =>
    intro acc
    have h1 := ih (16 * acc + hexDigitVal c)
    have hd := hexDigitVal_lt c
    have h2 : (16 * acc + hexDigitVal c + 1) * 16 ^ l.length ≤
        (acc + 1) * 16 ^ (c :: l).length := by
      simp only [List.length_cons, pow_succ]
      calc (16 * acc + hexDigitVal c + 1) * 16 ^ l.length
          ≤ ((acc + 1) * 16) * 16 ^ l.length :=
            Nat.mul_le_mul_right _ (by omega)
        _ = (acc + 1) * (16 ^ l.length * 16) := by ring
    exact lt_of_lt_of_le h1 h2

theorem hexVal_lt_of_isHex16 {s : String} (h : isHex16 s = true) :
    hexVal s < 2 ^ 64 := by
  have hlen : s.data.length = 16 := by
    unfold isHex16 at h
    simp only [Bool.and_eq_true, beq_iff_eq] at h
    exact h.1
  have := hexVal_foldl_lt s.data 0
  rw [hlen] at this
  unfold hexVal
  calc s.data.foldl (fun a c => 16 * a + hexDigitVal c) 0 < (0 + 1) * 16 ^ 16 := this
    _ = 2 ^ 64 := by norm_num

theorem phash_hamming_le_64 {a b : String} (ha : isHex16 a = true)
    (hb : isHex16 b = true) : phash_hamming a b ≤ 64 :=
  popCount_le (Nat.xor_lt_two_pow (hexVal_lt_of_isHex16 ha) (hexVal_lt_of_isHex16 hb))

/-- `similar_confidence` is the spec's `1 - distance/64`. -/
theorem similar_confidence_eq (d : Nat) :
    similar_confidence d = 1 - (d : ℚ) / 64 := by
  unfold similar_confidence
  rw [Rat.mkRat_eq_div]
  push_cast
  ring

/-! ### Membership structure of the lookup results -/

theorem excludeFilter_subset {ex : Option String} {rows : List Recipe} {r : Recipe}
    (h : r ∈ excludeFilter ex rows) : r ∈ rows := by
  unfold excludeFilter at h
  cases ex with
  | none => exact h
  | some e =>
    by_cases he : e = ""
    · simpa [he] using h
    · simp only [he, if_false, ite_false] at h
      exact (List.mem_filter.mp h).1

theorem excludeFilter_ne {e : String} (hne : e ≠ "") {rows : List Recipe}
    {r : Recipe} (h : r ∈ excludeFilter (some e) rows) : r.id ≠ e := by
  unfold excludeFilter at h
  simp only [hne, if_false, ite_false] at h
  have := (List.mem_filter.mp h).2
  simpa using this

theorem mem_stream_perceptual_hashes {db : List Recipe} {ex : Option String}
    {row : String × String × String} (h : row ∈ stream_perceptual_hashes db ex) :
    ∃ r ∈ db, r.image_perceptual_hash = some row.2.2 ∧ row.1 = r.id ∧
      row.2.1 = r.name := by
  unfold stream_perceptual_hashes at h
  rcases List.mem_filterMap.mp h with ⟨r, hr, hmap⟩
  have hdb : r ∈ db := (List.mem_filter.mp (excludeFilter_subset hr)).1
  cases hh : r.image_perceptual_hash with
  | none => rw [hh] at hmap; simp [Option.map] at hmap
  | some v =>
    rw [hh] at hmap
    simp only [Option.map, Option.some.injEq] at hmap
    subst hmap
    exact ⟨r, hdb, hh, rfl, rfl⟩

theorem mem_stream_perceptual_hashes_ne {db : List Recipe} {e : String}
    (hne : e ≠ "") {row : String × String × String}
    (h : row ∈ stream_perceptual_hashes db (some e)) : row.1 ≠ e := by
  unfold stream_perceptual_hashes at h
  rcases List.mem_filterMap.mp h with ⟨r, hr, hmap⟩
  have hid : r.id ≠ e := excludeFilter_ne hne hr
  cases hh : r.image_perceptual_hash with
  | none => rw [hh] at hmap; simp [Option.map] at hmap
  | some v =>
    rw [hh] at hmap
    simp only [Option.map, Option.some.injEq] at hmap
    subst hmap
    exact hid

/-- Every match of `check_similar_images` arises from a stored recipe
    with a non-null perceptual hash within the distance threshold. -/
theorem mem_check_similar_images {db : List Recipe} {q : String} {thr : Nat}
    {ex : Option String} {mx : Nat} {m : DuplicateMatch}
    (hm : m ∈ check_similar_images db q thr ex mx) :
    ∃ r ∈ db, ∃ hsh, r.image_perceptual_hash = some hsh ∧
      phash_hamming q hsh ≤ thr ∧
      m = ⟨r.id, r.name, "similar_image", similar_confidence (phash_hamming q hsh),
           "Visually similar image (hamming distance: " ++
             natStr (phash_hamming q hsh) ++ ")"⟩ := by
  unfold check_similar_images at hm
  have hm2 := (List.take_sublist mx _).subset hm
  have hm3 := (List.perm_insertionSort confGe _).subset hm2
  rcases List.mem_filterMap.mp hm3 with ⟨row, hrow, hval⟩
  rcases mem_stream_perceptual_hashes hrow with ⟨r, hdb, hhash, hid, hname⟩
  by_cases hthr : phash_hamming q row.2.2 ≤ thr
  · simp only [hthr, if_true, ite_true, Option.some.injEq] at hval
    refine ⟨r, hdb, row.2.2, hhash, hthr, ?_⟩
    rw [← hval, hid, hname]
  · simp [hthr] at hval

theorem check_similar_images_sorted (db : List Recipe) (q : String) (thr : Nat)
    (ex : Option String) (mx : Nat) :
    List.Sorted confGe (check_similar_images db q thr ex mx) := by
  unfold check_similar_images
  exact (List.sorted_insertionSort confGe _).sublist (List.take_sublist mx _)

/-! ### Claim C5 -/

/-- C5: every match produced by the three lookups carries the fixed
    confidence of its strategy: `exact_image ↦ 1.0`,
    `same_recipe ↦ 0.95`, and `similar_image ↦ 1 - distance/64`,
    which lies in `[0, 1]` for well-formed 16-hex-digit hashes. -/
theorem claim_C5_confidence_invariants :
    (∀ (db : List Recipe) (h : String) (ex : Option String) (m : DuplicateMatch),
      check_exact_duplicate db h ex = some m →
      m.match_type = "exact_image" ∧ m.confidence = 1) ∧
    (∀ (db : List Recipe) (f : String) (ex : Option String) (m : DuplicateMatch),
      check_recipe_fingerprint db f ex = some m →
      m.match_type = "same_recipe" ∧ m.confidence = 19 / 20) ∧
    (∀ (db : List Recipe) (q : String) (thr : Nat) (ex : Option String)
      (mx : Nat) (m : DuplicateMatch), m ∈ check_similar_images db q thr ex mx →
      m.match_type = "similar_image" ∧
      ∃ r ∈ db, ∃ hsh, r.image_perceptual_hash = some hsh ∧
        m.confidence = 1 - (phash_hamming q hsh : ℚ) / 64 ∧
        (isHex16 q = true → isHex16 hsh = true →
          0 ≤ m.confidence ∧ m.confidence ≤ 1)) := by
  refine ⟨?_, ?_, ?_⟩
  · intro db h ex m hm
    unfold check_exact_duplicate at hm
    rcases Option.map_eq_some'.mp hm with ⟨r, _, hr⟩
    rw [← hr]
    exact ⟨rfl, rfl⟩
  · intro db f ex m hm
    unfold check_recipe_fingerprint at hm
    rcases Option.map_eq_some'.mp hm with ⟨r, _, hr⟩
    rw [← hr]
    refine ⟨rfl, ?_⟩
    show mkRat 19 20 = 19 / 20
    rw [Rat.mkRat_eq_div]
    norm_num
  · intro db q thr ex mx m hm
    rcases mem_check_similar_images hm with ⟨r, hdb, hsh, hhash, _hthr, hmatch⟩
    subst hmatch
    refine ⟨rfl, r, hdb, hsh, hhash, similar_confidence_eq _, ?_⟩
    intro hq hh
    have hle : phash_hamming q hsh ≤ 64 := phash_hamming_le_64 hq hh
    rw [similar_confidence_eq]
    constructor
    · have : (phash_hamming q hsh : ℚ) ≤ 64 := by exact_mod_cast hle
      have h64 : (0 : ℚ) < 64 := by norm_num
      rw [sub_nonneg, div_le_one h64]
      exact this
    · have : (0 : ℚ) ≤ (phash_hamming q hsh : ℚ) / 64 := by positivity
      linarith

theorem claim_C5_confidence_invariants_witness :
    ((⟨"r1", "R", "exact_image", 1, "Identical image file detected"⟩ :
        DuplicateMatch).match_type = "exact_image" ∧
      (⟨"r1", "R", "exact_image", 1, "Identical image file detected"⟩ :
        DuplicateMatch).confidence = 1) ∧
    ((⟨"r1", "R", "same_recipe", mkRat 19 20,
        "Same recipe name and ingredients (possibly from different source)"⟩ :
        DuplicateMatch).match_type = "same_recipe" ∧
      (⟨"r1", "R", "same_recipe", mkRat 19 20,
        "Same recipe name and ingredients (possibly from different source)"⟩ :
        DuplicateMatch).confidence = 19 / 20) ∧
    (⟨"r1", "R", "similar_image", similar_confidence 4,
        "Visually similar image (hamming distance: 4)"⟩ :
        DuplicateMatch).match_type = "similar_image" := by
  refine ⟨?_, ?_, ?_⟩
  · exact claim_C5_confidence_invariants.1
      [⟨"r1", "R", some "ch", none, none⟩] "ch" none _ (by decide)
  · exact claim_C5_confidence_invariants.2.1
      [⟨"r1", "R", none, none, some "fp"⟩] "fp" none _ (by decide)
  · exact (claim_C5_confidence_invariants.2.2
      [⟨"r1", "R", none, some "fffffffffffffff0", none⟩] "ffffffffffffffff"
      10 none 10 _ (by decide)).1

/-! ### Claim C6 -/

/-- C6: `check_similar_images` only returns matches within the
    threshold coming from rows with a non-null perceptual hash, never
    a match for a null-hash recipe, at most `max_matches` entries,
    sorted descending by confidence. -/
theorem claim_C6_similar_images_bounded_sorted (db : List Recipe) (q : String)
    (thr : Nat) (ex : Option String) (mx : Nat)
    (hid : (db.map Recipe.id).Nodup) :
    (∀ m ∈ check_similar_images db q thr ex mx,
      ∃ r ∈ db, ∃ hsh, r.image_perceptual_hash = some hsh ∧
        m.recipe_id = r.id ∧ phash_hamming q hsh ≤ thr) ∧
    (∀ m ∈ check_similar_images db q thr ex mx, ∀ r2 ∈ db,
      r2.image_perceptual_hash = none → m.recipe_id ≠ r2.id) ∧
    (check_similar_images db q thr ex mx).length ≤ mx ∧
    List.Sorted (fun a b => b.confidence ≤ a.confidence)
      (check_similar_images db q thr ex mx) := by
  refine ⟨?_, ?_, ?_, ?_⟩
  · intro m hm
    rcases mem_check_similar_images hm with ⟨r, hdb, hsh, hhash, hthr, hmatch⟩
    exact ⟨r, hdb, hsh, hhash, by rw [hmatch], hthr⟩
  · intro m hm r2 hr2 hnull
    rcases mem_check_similar_images hm with ⟨r, hdb, hsh, hhash, _hthr, hmatch⟩
    intro heq
    have hideq : r.id = r2.id := by rw [hmatch] at heq; exact heq
    have : r = r2 := List.inj_on_of_nodup_map hid hdb hr2 hideq
    rw [this, hnull] at hhash
    exact Option.noConfusion hhash
  · unfold check_similar_images
    exact List.length_take_le mx _
  · exact (check_similar_images_sorted db q thr ex mx).imp (fun h => h)

theorem claim_C6_similar_images_bounded_sorted_witness :
    (check_similar_images [⟨"r1", "R", none, some "fffffffffffffff0", none⟩,
        ⟨"r2", "S", none, none, none⟩] "ffffffffffffffff" 10 none 10).length ≤ 10 ∧
    List.Sorted (fun a b : DuplicateMatch => b.confidence ≤ a.confidence)
      (check_similar_images [⟨"r1", "R", none, some "fffffffffffffff0", none⟩,
        ⟨"r2", "S", none, none, none⟩] "ffffffffffffffff" 10 none 10) := by
  have h := claim_C6_similar_images_bounded_sorted
    [⟨"r1", "R", none, some "fffffffffffffff0", none⟩,
      ⟨"r2", "S", none, none, none⟩] "ffffffffffffffff" 10 none 10 (by decide)
  exact ⟨h.2.2.1, h.2.2.2⟩

/-! ### Invariant of the dedup loop -/

/-- What holds of the `seen_recipes` dict after processing `ms`:
    keys are distinct, each entry holds a match of `ms` for its own
    key bearing the maximal confidence among matches of `ms` with that
    recipe id, and every processed recipe id has an entry. -/
def SeenInv (ms : List DuplicateMatch) (seen : List (String × DuplicateMatch)) :
    Prop :=
  (seen.map Prod.fst).Nodup ∧
  (∀ p ∈ seen, p.2.recipe_id = p.1 ∧ p.2 ∈ ms ∧
    ∀ m ∈ ms, m.recipe_id = p.1 → m.confidence ≤ p.2.confidence) ∧
  (∀ m ∈ ms, ∃ p ∈ seen, p.1 = m.recipe_id)

theorem seenInv_insertMatch {ms : List DuplicateMatch}
    {seen : List (String × DuplicateMatch)} (m : DuplicateMatch)
    (h : SeenInv ms seen) : SeenInv (ms ++ [m]) (insertMatch seen m) := by
  obtain ⟨hnd, hent, hcov⟩ := h
  cases hfind : seen.find? (fun p => p.1 == m.recipe_id) with
  | none =>
    have heq : insertMatch seen m = seen ++ [(m.recipe_id, m)] := by
      unfold insertMatch; rw [hfind]
    rw [heq]
    have hnone : ∀ p ∈ seen, p.1 ≠ m.recipe_id := by
      intro p hp
      have := List.find?_eq_none.mp hfind p hp
      simpa using this
    refine ⟨?_, ?_, ?_⟩
    · rw [List.map_append]
      refine List.Nodup.append hnd (List.nodup_singleton _) ?_
      intro a ha hb
      simp only [List.map_cons, List.map_nil, List.mem_singleton] at hb
      rcases List.mem_map.mp ha with ⟨p, hp, rfl⟩
      exact hnone p hp hb
    · intro p hp
      rcases List.mem_append.mp hp with hp | hp
      · obtain ⟨hid, hmem, hmax⟩ := hent p hp
        refine ⟨hid, List.mem_append_left _ hmem, ?_⟩
        intro m2 hm2 hm2id
        rcases List.mem_append.mp hm2 with hm2 | hm2
        · exact hmax m2 hm2 hm2id
        · have hm2eq : m2 = m := List.mem_singleton.mp hm2
          rw [hm2eq] at hm2id
          exact absurd hm2id.symm (hnone p hp)
      · have hpe : p = (m.recipe_id, m) := List.mem_singleton.mp hp
        rw [hpe]
        refine ⟨rfl, List.mem_append_right _ (List.mem_singleton_self m), ?_⟩
        intro m2 hm2 hm2id
        rcases List.mem_append.mp hm2 with hm2 | hm2
        · rcases hcov m2 hm2 with ⟨p2, hp2, hp2id⟩
          exact absurd (hp2id.trans hm2id) (hnone p2 hp2)
        · rw [List.mem_singleton.mp hm2]
    · intro m2 hm2
      rcases List.mem_append.mp hm2 with hm2 | hm2
      · rcases hcov m2 hm2 with ⟨p2, hp2, hid⟩
        exact ⟨p2, List.mem_append_left _ hp2, hid⟩
      · refine ⟨(m.recipe_id, m),
          List.mem_append_right _ (List.mem_singleton_self _), ?_⟩
        rw [List.mem_singleton.mp hm2]
  | some p0 =>
    have hp0mem : p0 ∈ seen := List.mem_of_find?_eq_some hfind
    have hp0id : p0.1 = m.recipe_id := by
      have := List.find?_some hfind
      simpa using this
    by_cases hlt : p0.2.confidence < m.confidence
    · have heq : insertMatch seen m =
          seen.map (fun q => if q.1 = m.recipe_id then (m.recipe_id, m) else q) := by
        unfold insertMatch; rw [hfind]; simp [hlt]
      rw [heq]
      have hkeys : ((seen.map (fun q => if q.1 = m.recipe_id then (m.recipe_id, m)
          else q)).map Prod.fst) = seen.map Prod.fst := by
        rw [List.map_map]
        refine List.map_congr_left ?_
        intro q _hq
        by_cases hq1 : q.1 = m.recipe_id
        · simp [hq1]
        · simp [hq1]
      refine ⟨?_, ?_, ?_⟩
      · rw [hkeys]; exact hnd
      · intro p hp
        rcases List.mem_map.mp hp with ⟨q, hq, rfl⟩
        by_cases hq1 : q.1 = m.recipe_id
        · simp only [hq1, if_true, ite_true]
          refine ⟨by simp, List.mem_append_right _ (List.mem_singleton_self m), ?_⟩
          intro m2 hm2 hm2id
          rcases List.mem_append.mp hm2 with hm2 | hm2
          · obtain ⟨_, _, hmax0⟩ := hent p0 hp0mem
            have := hmax0 m2 hm2 (by rw [hm2id, hp0id])
            exact le_trans this (le_of_lt hlt)
          · rw [List.mem_singleton.mp hm2]
        · simp only [hq1, if_false, ite_false]
          obtain ⟨hid, hmem, hmax⟩ := hent q hq
          refine ⟨hid, List.mem_append_left _ hmem, ?_⟩
          intro m2 hm2 hm2id
          rcases List.mem_append.mp hm2 with hm2 | hm2
          · exact hmax m2 hm2 hm2id
          · have hm2eq : m2 = m := List.mem_singleton.mp hm2
            rw [hm2eq] at hm2id
            exact absurd hm2id.symm hq1
      · intro m2 hm2
        rcases List.mem_append.mp hm2 with hm2 | hm2
        · rcases hcov m2 hm2 with ⟨p2, hp2, hid⟩
          refine ⟨if p2.1 = m.recipe_id then (m.recipe_id, m) else p2,
            List.mem_map_of_mem _ hp2, ?_⟩
          by_cases h1 : p2.1 = m.recipe_id
          · simp only [h1, if_true, ite_true]
            rw [← h1, hid]
          · simp only [h1, if_false, ite_false]
            exact hid
        · refine ⟨(m.recipe_id, m),
            List.mem_map.mpr ⟨p0, hp0mem, by simp [hp0id]⟩, ?_⟩
          rw [List.mem_singleton.mp hm2]
    · have heq : insertMatch seen m = seen := by
        unfold insertMatch; rw [hfind]; simp [hlt]
      rw [heq]
      refine ⟨hnd, ?_, ?_⟩
      · intro p hp
        obtain ⟨hid, hmem, hmax⟩ := hent p hp
        refine ⟨hid, List.mem_append_left _ hmem, ?_⟩
        intro m2 hm2 hm2id
        rcases List.mem_append.mp hm2 with hm2 | hm2
        · exact hmax m2 hm2 hm2id
        · have hm2eq : m2 = m := List.mem_singleton.mp hm2
          have hpp0 : p = p0 := by
            refine List.inj_on_of_nodup_map hnd hp hp0mem ?_
            rw [← hm2id, hm2eq, hp0id]
          rw [hm2eq, hpp0]
          exact le_of_not_lt hlt
      · intro m2 hm2
        rcases List.mem_append.mp hm2 with hm2 | hm2
        · exact hcov m2 hm2
        · refine ⟨p0, hp0mem, ?_⟩
          rw [List.mem_singleton.mp hm2, hp0id]

theorem seenInv_foldl : ∀ (rest done : List DuplicateMatch)
    (seen : List (String × DuplicateMatch)), SeenInv done seen →
    SeenInv (done ++ rest) (rest.foldl insertMatch seen)
  | [], done, seen, h => by simpa using h
  | m :: rest, done, seen, h => by
    have h3 := seenInv_foldl rest (done ++ [m]) (insertMatch seen m)
      (seenInv_insertMatch m h)
    simpa using h3

theorem seenInv_dedup (ms : List DuplicateMatch) :
    SeenInv ms (dedup_matches ms) := by
  have h0 : SeenInv [] [] := ⟨List.nodup_nil, by simp, by simp⟩
  have := seenInv_foldl ms [] [] h0
  simpa [dedup_matches] using this

/-- The deduplicated values keep distinct recipe ids. -/
theorem dedup_values_ids_nodup (ms : List DuplicateMatch) :
    (((dedup_matches ms).map Prod.snd).map DuplicateMatch.recipe_id).Nodup := by
  obtain ⟨hnd, hent, _⟩ := seenInv_dedup ms
  have : ((dedup_matches ms).map Prod.snd).map DuplicateMatch.recipe_id =
      (dedup_matches ms).map Prod.fst := by
    rw [List.map_map]
    refine List.map_congr_left ?_
    intro p hp
    exact (hent p hp).1
  rw [this]
  exact hnd

/-! ### Decomposing `gather_matches` -/

theorem mem_gather_matches {db : List Recipe} {hashes : ImageHashes}
    {rn : Option String} {ing : Option (List Ingredient)} {ex : Option String}
    {m : DuplicateMatch} (hm : m ∈ gather_matches db hashes rn ing ex) :
    check_exact_duplicate db hashes.content_hash ex = some m ∨
    m ∈ check_similar_images db hashes.perceptual_hash
      PHASH_SIMILARITY_THRESHOLD ex 10 ∨
    ∃ n ings, rn = some n ∧ ing = some ings ∧
      check_recipe_fingerprint db (compute_recipe_fingerprint n ings) ex = some m := by
  unfold gather_matches at hm
  rcases List.mem_append.mp hm with hm | hm
  · rcases List.mem_append.mp hm with hm | hm
    · left
      cases hx : check_exact_duplicate db hashes.content_hash ex with
      | none => rw [hx] at hm; simp [optMatchList] at hm
      | some v =>
        rw [hx] at hm
        simp only [optMatchList, List.mem_singleton] at hm
        rw [hm]
    · right; left; exact hm
  · right; right
    rcases hrn : rn with _ | n
    · rw [hrn] at hm; simp at hm
    · rcases hing : ing with _ | ings
      · rw [hrn, hing] at hm; simp at hm
      · rw [hrn, hing] at hm
        simp only at hm
        by_cases hcond : n = "" ∨ ings = []
        · simp [hcond] at hm
        · simp only [hcond, if_false, ite_false] at hm
          cases hx : check_recipe_fingerprint db
              (compute_recipe_fingerprint n ings) ex with
          | none => rw [hx] at hm; simp [optMatchList] at hm
          | some v =>
            rw [hx] at hm
            simp only [optMatchList, List.mem_singleton] at hm
            exact ⟨n, ings, rfl, rfl, by rw [hm]; exact hx⟩

/-! ### Exclusion behaviour of the lookups (claim C7) -/

theorem check_exact_duplicate_ne {db : List Recipe} {h e : String}
    {m : DuplicateMatch} (hne : e ≠ "")
    (hm : check_exact_duplicate db h (some e) = some m) : m.recipe_id ≠ e := by
  unfold check_exact_duplicate at hm
  rcases Option.map_eq_some'.mp hm with ⟨r, hr, hval⟩
  cases hl : excludeFilter (some e)
      (db.filter (fun x => x.image_content_hash == some h)) with
  | nil => rw [hl] at hr; exact absurd hr (by simp)
  | cons a t =>
    rw [hl] at hr
    simp only [List.head?] at hr
    have ha : a ∈ excludeFilter (some e)
        (db.filter (fun x => x.image_content_hash == some h)) := by
      rw [hl]; exact List.mem_cons_self a t
    have hid := excludeFilter_ne hne ha
    rw [← hval]
    simp only [Option.some.injEq] at hr
    subst hr
    exact hid

theorem check_recipe_fingerprint_ne {db : List Recipe} {f e : String}
    {m : DuplicateMatch} (hne : e ≠ "")
    (hm : check_recipe_fingerprint db f (some e) = some m) : m.recipe_id ≠ e := by
  unfold check_recipe_fingerprint at hm
  rcases Option.map_eq_some'.mp hm with ⟨r, hr, hval⟩
  cases hl : excludeFilter (some e)
      (db.filter (fun x => x.recipe_fingerprint == some f)) with
  | nil => rw [hl] at hr; exact absurd hr (by simp)
  | cons a t =>
    rw [hl] at hr
    simp only [List.head?] at hr
    have ha : a ∈ excludeFilter (some e)
        (db.filter (fun x => x.recipe_fingerprint == some f)) := by
      rw [hl]; exact List.mem_cons_self a t
    have hid := excludeFilter_ne hne ha
    rw [← hval]
    simp only [Option.some.injEq] at hr
    subst hr
    exact hid

theorem check_similar_images_ne {db : List Recipe} {q : String} {thr : Nat}
    {e : String} {mx : Nat} {m : DuplicateMatch} (hne : e ≠ "")
    (hm : m ∈ check_similar_images db q thr (some e) mx) : m.recipe_id ≠ e := by
  unfold check_similar_images at hm
  have hm2 := (List.take_sublist mx _).subset hm
  have hm3 := (List.perm_insertionSort confGe _).subset hm2
  rcases List.mem_filterMap.mp hm3 with ⟨row, hrow, hval⟩
  have hrowne := mem_stream_perceptual_hashes_ne hne hrow
  by_cases hthr : phash_hamming q row.2.2 ≤ thr
  · simp only [hthr, if_true, ite_true, Option.some.injEq] at hval
    rw [← hval]
    exact hrowne
  · simp [hthr] at hval

/-! ### Claim C7 -/

/-- C7 is false as stated: an empty-string `exclude_recipe_id` is
    non-null but Python-falsy, so `check_exact_duplicate` applies no
    exclusion filter and returns a match whose recipe_id equals the
    excluded id. -/
theorem claim_C7_counterexample :
    (check_exact_duplicate [⟨"", "R", some "ch", none, none⟩] "ch" (some "")).map
      DuplicateMatch.recipe_id = some "" := by decide

/-- C7 (amended): for every non-null and non-empty `exclude_recipe_id`
    `e`, no match returned by `check_exact_duplicate`,
    `check_similar_images` or `check_recipe_fingerprint`, and hence no
    match in the result of `check_for_duplicates`, has
    `recipe_id = e`.  (The truthiness test in the source skips the
    filter for the empty string, see the counterexample.) -/
theorem claim_C7_exclusion (e : String) (hne : e ≠ "") :
    (∀ (db : List Recipe) (h : String) (m : DuplicateMatch),
      check_exact_duplicate db h (some e) = some m → m.recipe_id ≠ e) ∧
    (∀ (db : List Recipe) (q : String) (thr mx : Nat) (m : DuplicateMatch),
      m ∈ check_similar_images db q thr (some e) mx → m.recipe_id ≠ e) ∧
    (∀ (db : List Recipe) (f : String) (m : DuplicateMatch),
      check_recipe_fingerprint db f (some e) = some m → m.recipe_id ≠ e) ∧
    (∀ (fromImage : List Nat → ImageHashes) (db : List Recipe)
      (image_data : List Nat) (rn : Option String)
      (ing : Option (List Ingredient)) (pre : Option ImageHashes)
      (m : DuplicateMatch),
      m ∈ (check_for_duplicates fromImage db image_data rn ing (some e)
        pre).«matches» → m.recipe_id ≠ e) := by
  refine ⟨fun db h m hm => check_exact_duplicate_ne hne hm,
    fun db q thr mx m hm => check_similar_images_ne hne hm,
    fun db f m hm => check_recipe_fingerprint_ne hne hm, ?_⟩
  intro fromImage db image_data rn ing pre m hm
  have hm1 : m ∈ (dedup_matches (gather_matches db
      (resolveHashes fromImage image_data pre) rn ing (some e))).map Prod.snd :=
    (List.perm_insertionSort confGe _).subset hm
  rcases List.mem_map.mp hm1 with ⟨p, hp, hpm⟩
  have hinv := (seenInv_dedup _).2.1 p hp
  have hraw : m ∈ gather_matches db (resolveHashes fromImage image_data pre)
      rn ing (some e) := by
    rw [← hpm]; exact hinv.2.1
  rcases mem_gather_matches hraw with hc | hc | ⟨n, ings, _, _, hc⟩
  · exact check_exact_duplicate_ne hne hc
  · exact check_similar_images_ne hne hc
  · exact check_recipe_fingerprint_ne hne hc

theorem claim_C7_exclusion_witness :
    (⟨"r1", "R", "exact_image", 1, "Identical image file detected"⟩ :
      DuplicateMatch).recipe_id ≠ "r2" :=
  (claim_C7_exclusion "r2" (by decide)).1
    [⟨"r1", "R", some "ch", none, none⟩, ⟨"r2", "S", some "ch", none, none⟩]
    "ch" _ (by decide)

/-! ### Claim C1 -/

theorem excludeFilter_nil (ex : Option String) : excludeFilter ex [] = [] := by
  unfold excludeFilter
  cases ex with
  | none => rfl
  | some e => by_cases he : e = "" <;> simp [he]

theorem check_exact_duplicate_nil (h : String) (ex : Option String) :
    check_exact_duplicate [] h ex = none := by
  unfold check_exact_duplicate
  rw [List.filter_nil, excludeFilter_nil]
  rfl

theorem check_recipe_fingerprint_nil (f : String) (ex : Option String) :
    check_recipe_fingerprint [] f ex = none := by
  unfold check_recipe_fingerprint
  rw [List.filter_nil, excludeFilter_nil]
  rfl

theorem check_similar_images_nil (q : String) (thr : Nat) (ex : Option String)
    (mx : Nat) : check_similar_images [] q thr ex mx = [] := by
  unfold check_similar_images stream_perceptual_hashes
  rw [List.filter_nil, excludeFilter_nil]
  simp

theorem gather_matches_nil (hashes : ImageHashes) (rn : Option String)
    (ing : Option (List Ingredient)) (ex : Option String) :
    gather_matches [] hashes rn ing ex = [] := by
  unfold gather_matches
  rw [check_exact_duplicate_nil, check_similar_images_nil]
  cases rn with
  | none => rfl
  | some n =>
    cases ing with
    | none => rfl
    | some ings =>
      by_cases hc : n = "" ∨ ings = []
      · simp [hc, optMatchList]
      · simp [hc, check_recipe_fingerprint_nil, optMatchList]

/-- C1: the merged result keeps at most one entry per recipe id, the
    surviving entry bears the maximal confidence among all strategy
    matches produced for that recipe in the call (and every produced
    recipe id survives), the list is sorted descending by confidence,
    `is_duplicate` holds iff the list is non-empty, and an empty store
    yields `⟨false, []⟩`. -/
theorem claim_C1_check_for_duplicates_merge
    (fromImage : List Nat → ImageHashes) (db : List Recipe)
    (image_data : List Nat) (rn : Option String) (ing : Option (List Ingredient))
    (ex : Option String) (pre : Option ImageHashes) :
    List.Pairwise (fun a b : DuplicateMatch => a.recipe_id ≠ b.recipe_id)
      (check_for_duplicates fromImage db image_data rn ing ex pre).«matches» ∧
    (∀ m ∈ (check_for_duplicates fromImage db image_data rn ing ex pre).«matches»,
      m ∈ gather_matches db (resolveHashes fromImage image_data pre) rn ing ex ∧
      ∀ m2 ∈ gather_matches db (resolveHashes fromImage image_data pre) rn ing ex,
        m2.recipe_id = m.recipe_id → m2.confidence ≤ m.confidence) ∧
    (∀ m2 ∈ gather_matches db (resolveHashes fromImage image_data pre) rn ing ex,
      ∃ m ∈ (check_for_duplicates fromImage db image_data rn ing ex pre).«matches»,
        m.recipe_id = m2.recipe_id) ∧
    List.Sorted (fun a b : DuplicateMatch => b.confidence ≤ a.confidence)
      (check_for_duplicates fromImage db image_data rn ing ex pre).«matches» ∧
    ((check_for_duplicates fromImage db image_data rn ing ex pre).is_duplicate
        = true ↔
      (check_for_duplicates fromImage db image_data rn ing ex pre).«matches» ≠ []) ∧
    (db = [] → check_for_duplicates fromImage db image_data rn ing ex pre =
      ⟨false, []⟩) := by
  obtain ⟨hnd, hent, hcov⟩ := seenInv_dedup
    (gather_matches db (resolveHashes fromImage image_data pre) rn ing ex)
  have hperm : (check_for_duplicates fromImage db image_data rn ing ex
      pre).«matches».Perm ((dedup_matches (gather_matches db
        (resolveHashes fromImage image_data pre) rn ing ex)).map Prod.snd) :=
    List.perm_insertionSort confGe _
  refine ⟨?_, ?_, ?_, ?_, ?_, ?_⟩
  · have hvals := dedup_values_ids_nodup
      (gather_matches db (resolveHashes fromImage image_data pre) rn ing ex)
    have hpair : List.Pairwise (fun a b : DuplicateMatch =>
        a.recipe_id ≠ b.recipe_id) ((dedup_matches (gather_matches db
          (resolveHashes fromImage image_data pre) rn ing ex)).map Prod.snd) :=
      List.pairwise_map.mp hvals
    exact (hperm.pairwise_iff (fun h => Ne.symm h)).mpr hpair
  · intro m hm
    rcases List.mem_map.mp (hperm.subset hm) with ⟨p, hp, hpm⟩
    obtain ⟨hid, hmem, hmax⟩ := hent p hp
    subst hpm
    exact ⟨hmem, fun m2 hm2 hm2id => hmax m2 hm2 (hm2id.trans hid)⟩
  · intro m2 hm2
    rcases hcov m2 hm2 with ⟨p, hp, hpid⟩
    refine ⟨p.2, hperm.mem_iff.mpr (List.mem_map_of_mem Prod.snd hp), ?_⟩
    rw [(hent p hp).1, hpid]
  · exact (List.sorted_insertionSort confGe _).imp (fun h => h)
  · simp only [check_for_duplicates, decide_eq_true_eq]
    rw [← List.length_pos_iff_ne_nil]
  · intro hdb
    subst hdb
    simp [check_for_duplicates, gather_matches_nil, dedup_matches]

/-- Concrete store used by several witnesses: one exact-image hit, one
    similar-image hit, one fingerprint hit. -/
def dbW : List Recipe :=
  [⟨"r1", "Margarita", some "ch1", some "ffffffffffffffff", some "fp1"⟩,
   ⟨"r2", "Daiquiri", some "ch2", some "fffffffffffffff0", none⟩,
   ⟨"r3", "Mai Tai", none, none, some "28c5ef0fe8c182762fc972c8e48ec5c0"⟩]

def fW : List Nat → ImageHashes := fun _ => ⟨"ch1", "ffffffffffffffff"⟩

def ingW : List Ingredient :=
  [("Tequila", some 2, some "oz"), ("Lime Juice", some 1, some "oz")]

theorem claim_C1_check_for_duplicates_merge_witness :
    List.Pairwise (fun a b : DuplicateMatch => a.recipe_id ≠ b.recipe_id)
      (check_for_duplicates fW dbW [] (some "Margarita") (some ingW) none
        none).«matches» ∧
    List.Sorted (fun a b : DuplicateMatch => b.confidence ≤ a.confidence)
      (check_for_duplicates fW dbW [] (some "Margarita") (some ingW) none
        none).«matches» ∧
    ((check_for_duplicates fW dbW [] (some "Margarita") (some ingW) none
        none).is_duplicate = true ↔
      (check_for_duplicates fW dbW [] (some "Margarita") (some ingW) none
        none).«matches» ≠ []) ∧
    check_for_duplicates fW [] [] none none none none = ⟨false, []⟩ := by
  have h1 := claim_C1_check_for_duplicates_merge fW dbW [] (some "Margarita")
    (some ingW) none none
  have h2 := claim_C1_check_for_duplicates_merge fW [] [] none none none none
  exact ⟨h1.1, h1.2.2.2.1, h1.2.2.2.2.1, h2.2.2.2.2.2 rfl⟩

/-! ### Claim C8 -/

/-- Reachable cache states: every entry caches exactly the perceptual
    hash of the image bytes in its key (the only way entries are ever
    inserted). -/
def CacheWF (phash : List Nat → String) (st : CacheState) : Prop :=
  ∀ e ∈ st.entries, e.2 = phash e.1.2

/-- C8: on any reachable cache state - empty, warm, or just cleared -
    `compute_perceptual_hash` returns exactly the directly computed
    (uncached) value `phash image_data` and preserves reachability;
    `clear_hash_cache` and the empty cache are reachable.  The cache
    never affects the returned result. -/
theorem claim_C8_cache_transparent (sha256 phash : List Nat → String)
    (st : CacheState) (image_data : List Nat) (hwf : CacheWF phash st) :
    (compute_perceptual_hash sha256 phash st image_data).1 = phash image_data ∧
    CacheWF phash (compute_perceptual_hash sha256 phash st image_data).2 ∧
    CacheWF phash (clear_hash_cache st) ∧
    CacheWF phash (⟨[]⟩ : CacheState) := by
  refine ⟨?_, ?_, ?_, ?_⟩
  · unfold compute_perceptual_hash cached_perceptual_hash
    cases hfind : st.entries.find? (cacheKeyMatch (sha256 image_data) image_data) with
    | none => rfl
    | some e =>
      have hmem : e ∈ st.entries := List.mem_of_find?_eq_some hfind
      have hkey := List.find?_some hfind
      unfold cacheKeyMatch at hkey
      simp only [Bool.and_eq_true, beq_iff_eq] at hkey
      simp only
      rw [hwf e hmem, hkey.2]
  · unfold compute_perceptual_hash cached_perceptual_hash
    cases hfind : st.entries.find? (cacheKeyMatch (sha256 image_data) image_data) with
    | none =>
      intro e2 he2
      simp only at he2
      rcases List.mem_cons.mp he2 with he2 | he2
      · rw [he2]
      · exact hwf e2 ((List.take_sublist _ _).subset he2)
    | some e =>
      have hmem : e ∈ st.entries := List.mem_of_find?_eq_some hfind
      have hkey := List.find?_some hfind
      unfold cacheKeyMatch at hkey
      simp only [Bool.and_eq_true, beq_iff_eq] at hkey
      intro e2 he2
      simp only at he2
      rcases List.mem_cons.mp he2 with he2 | he2
      · rw [he2, hwf e hmem, hkey.2]
      · exact hwf e2 (List.mem_of_mem_filter he2)
  · intro e he
    simp [clear_hash_cache] at he
  · intro e he
    simp at he

theorem claim_C8_cache_transparent_witness :
    (compute_perceptual_hash (fun _ => "ch") (fun _ => "ph") ⟨[]⟩ [1, 2]).1 =
      (fun _ : List Nat => "ph") [1, 2] ∧
    CacheWF (fun _ => "ph")
      (compute_perceptual_hash (fun _ => "ch") (fun _ => "ph") ⟨[]⟩ [1, 2]).2 := by
  have h := claim_C8_cache_transparent (fun _ => "ch") (fun _ => "ph") ⟨[]⟩ [1, 2]
    (by intro e he; simp at he)
  exact ⟨h.1, h.2.1⟩

/-! ### Decimal rendering: value recovery and injectivity -/

/-- Reading a digit string back as a number. -/
def digitsVal (l : List Char) : Nat := l.foldl (fun a c => 10 * a + (c.toNat - 48)) 0

theorem digitChar_toNat {d : Nat} (h : d < 10) : (digitChar d).toNat = 48 + d := by
  interval_cases d <;> decide

theorem digitsVal_append_singleton (xs : List Char) (c : Char) :
    digitsVal (xs ++ [c]) = 10 * digitsVal xs + (c.toNat - 48) := by
  unfold digitsVal
  rw [List.foldl_append]
  rfl

theorem natDigitsAux_val : ∀ fuel n : Nat, n ≤ fuel →
    digitsVal (natDigitsAux fuel n) = n := by
  intro fuel
  induction fuel with
  | zero => intro n hn; interval_cases n; rfl
  | succ fuel ih =>
    intro n hn
    unfold natDigitsAux
    by_cases h0 : n = 0
    · simp [h0, digitsVal]
    · simp only [h0, if_false, ite_false]
      rw [digitsVal_append_singleton, ih (n / 10) (by omega),
        digitChar_toNat (Nat.mod_lt n (by omega))]
      omega

theorem natDigitsAux_digits : ∀ fuel n : Nat, ∀ c ∈ natDigitsAux fuel n,
    48 ≤ c.toNat ∧ c.toNat ≤ 57 := by
  intro fuel
  induction fuel with
  | zero => intro n c hc; simp [natDigitsAux] at hc
  | succ fuel ih =>
    intro n c hc
    unfold natDigitsAux at hc
    by_cases h0 : n = 0
    · simp [h0] at hc
    · simp only [h0, if_false, ite_false] at hc
      rcases List.mem_append.mp hc with hc | hc
      · exact ih (n / 10) c hc
      · have := List.mem_singleton.mp hc
        rw [this, digitChar_toNat (Nat.mod_lt n (by omega))]
        omega

theorem natStr_val (n : Nat) : digitsVal (natStr n).data = n := by
  unfold natStr
  by_cases h0 : n = 0
  · simp [h0, digitsVal]
  · simp only [h0, if_false, ite_false]
    exact natDigitsAux_val n n (Nat.le_refl n)

theorem natStr_digits (n : Nat) : ∀ c ∈ (natStr n).data,
    48 ≤ c.toNat ∧ c.toNat ≤ 57 := by
  unfold natStr
  by_cases h0 : n = 0
  · simp only [h0, if_true, ite_true]
    intro c hc
    rw [List.mem_singleton.mp hc]
    decide
  · simp only [h0, if_false, ite_false]
    exact natDigitsAux_digits n n

theorem natStr_ne_empty (n : Nat) : (natStr n).data ≠ [] := by
  intro h
  have := natStr_val n
  rw [h] at this
  unfold natStr at h
  by_cases h0 : n = 0
  · simp [h0] at h
  · exact h0 (by simpa [digitsVal] using this.symm)

theorem fracDigits_length : ∀ k r : Nat, (fracDigits k r).length = k := by
  intro k
  induction k with
  | zero => intro r; rfl
  | succ k ih => intro r; simp [fracDigits, ih]

theorem fracDigits_val : ∀ k r : Nat, r < 10 ^ k →
    digitsVal (fracDigits k r) = r := by
  intro k
  induction k with
  | zero =>
    intro r hr
    interval_cases r
    rfl
  | succ k ih =>
    intro r hr
    have hpow : 10 ^ (k + 1) = 10 * 10 ^ k := by ring
    unfold fracDigits
    rw [digitsVal_append_singleton, ih (r / 10) (by omega),
      digitChar_toNat (Nat.mod_lt r (by omega))]
    omega

theorem fracDigits_digits : ∀ k r : Nat, ∀ c ∈ fracDigits k r,
    48 ≤ c.toNat ∧ c.toNat ≤ 57 := by
  intro k
  induction k with
  | zero => intro r c hc; simp [fracDigits] at hc
  | succ k ih =>
    intro r c hc
    unfold fracDigits at hc
    rcases List.mem_append.mp hc with hc | hc
    · exact ih (r / 10) c hc
    · rw [List.mem_singleton.mp hc, digitChar_toNat (Nat.mod_lt r (by omega))]
      omega

/-- Splitting a concatenation at the first occurrence of a separator
    character absent from the prefixes. -/
theorem append_sep_inj {sep : Char} : ∀ {a₁ a₂ b₁ b₂ : List Char},
    sep ∉ a₁ → sep ∉ a₂ → a₁ ++ sep :: b₁ = a₂ ++ sep :: b₂ →
    a₁ = a₂ ∧ b₁ = b₂ := by
  intro a₁
  induction a₁ with
  | nil =>
    intro a₂ b₁ b₂ _ h₂ h
    cases a₂ with
    | nil => simpa using h
    | cons c t =>
      simp only [List.nil_append, List.cons_append, List.cons.injEq] at h
      refine absurd ?_ h₂
      rw [h.1]
      exact List.mem_cons_self c t
  | cons c t ih =>
    intro a₂ b₁ b₂ h₁ h₂ h
    cases a₂ with
    | nil =>
      simp only [List.cons_append, List.nil_append, List.cons.injEq] at h
      refine absurd ?_ h₁
      rw [← h.1]
      exact List.mem_cons_self c t
    | cons c₂ t₂ =>
      simp only [List.cons_append, List.cons.injEq] at h
      have hrec := ih (fun hm => h₁ (List.mem_cons_of_mem c hm))
        (fun hm => h₂ (List.mem_cons_of_mem c₂ hm)) h.2
      exact ⟨by rw [h.1, hrec.1], hrec.2⟩

theorem pyFloatStr_data_nonneg (q : ℚ) (hs : ¬ q < 0) :
    (pyFloatStr q).data =
      (natStr (q.num.natAbs * 10 ^ decExp q / q.den / 10 ^ decExp q)).data ++
      '.' :: fracDigits (decExp q)
        (q.num.natAbs * 10 ^ decExp q / q.den % 10 ^ decExp q) := by
  simp only [pyFloatStr, hs, if_false, ite_false, String.data_append,
    List.append_assoc, List.nil_append]
  rfl

theorem pyFloatStr_data_neg (q : ℚ) (hs : q < 0) :
    (pyFloatStr q).data =
      '-' :: ((natStr (q.num.natAbs * 10 ^ decExp q / q.den / 10 ^ decExp q)).data ++
      '.' :: fracDigits (decExp q)
        (q.num.natAbs * 10 ^ decExp q / q.den % 10 ^ decExp q)) := by
  simp only [pyFloatStr, hs, if_true, ite_true, String.data_append,
    List.append_assoc]
  rfl

theorem dot_not_mem_natStr (n : Nat) : ('.' : Char) ∉ (natStr n).data := by
  intro hm
  have hd := natStr_digits n _ hm
  have h46 : ('.' : Char).toNat = 46 := by decide
  omega

/-- Injectivity of the float rendering on decimal rationals (the
    denominator divides `10 ^ decExp q`, true of every value a float
    amount stands for). -/
theorem pyFloatStr_inj {q₁ q₂ : ℚ}
    (h₁ : 10 ^ decExp q₁ % q₁.den = 0) (h₂ : 10 ^ decExp q₂ % q₂.den = 0)
    (h : pyFloatStr q₁ = pyFloatStr q₂) : q₁ = q₂ := by
  have hdata := congrArg String.data h
  have hmain : ∀ (hs₁ : True),
      (natStr (q₁.num.natAbs * 10 ^ decExp q₁ / q₁.den / 10 ^ decExp q₁)).data ++
        '.' :: fracDigits (decExp q₁)
          (q₁.num.natAbs * 10 ^ decExp q₁ / q₁.den % 10 ^ decExp q₁) =
      (natStr (q₂.num.natAbs * 10 ^ decExp q₂ / q₂.den / 10 ^ decExp q₂)).data ++
        '.' :: fracDigits (decExp q₂)
          (q₂.num.natAbs * 10 ^ decExp q₂ / q₂.den % 10 ^ decExp q₂) →
      q₁.num.natAbs * q₂.den = q₂.num.natAbs * q₁.den := by
    intro _ hsplit
    obtain ⟨hint, hfrac⟩ := append_sep_inj (dot_not_mem_natStr _)
      (dot_not_mem_natStr _) hsplit
    have hk : decExp q₁ = decExp q₂ := by
      have := congrArg List.length hfrac
      rwa [fracDigits_length, fracDigits_length] at this
    have hip : q₁.num.natAbs * 10 ^ decExp q₁ / q₁.den / 10 ^ decExp q₁ =
        q₂.num.natAbs * 10 ^ decExp q₂ / q₂.den / 10 ^ decExp q₂ := by
      have hv := congrArg digitsVal hint
      rwa [natStr_val, natStr_val] at hv
    have hfr : q₁.num.natAbs * 10 ^ decExp q₁ / q₁.den % 10 ^ decExp q₁ =
        q₂.num.natAbs * 10 ^ decExp q₂ / q₂.den % 10 ^ decExp q₂ := by
      have hv := congrArg digitsVal hfrac
      rwa [fracDigits_val _ _ (Nat.mod_lt _ (Nat.pos_pow_of_pos _ (by omega))),
        fracDigits_val _ _ (Nat.mod_lt _ (Nat.pos_pow_of_pos _ (by omega)))] at hv
    have hm : q₁.num.natAbs * 10 ^ decExp q₁ / q₁.den =
        q₂.num.natAbs * 10 ^ decExp q₂ / q₂.den := by
      have e₁ := Nat.div_add_mod (q₁.num.natAbs * 10 ^ decExp q₁ / q₁.den)
        (10 ^ decExp q₁)
      have e₂ := Nat.div_add_mod (q₂.num.natAbs * 10 ^ decExp q₂ / q₂.den)
        (10 ^ decExp q₂)
      rw [← e₁, ← e₂, hip, hfr, hk]
    have hd₁ : q₁.den ∣ q₁.num.natAbs * 10 ^ decExp q₁ :=
      Dvd.dvd.mul_left (Nat.dvd_of_mod_eq_zero h₁) _
    have hd₂ : q₂.den ∣ q₂.num.natAbs * 10 ^ decExp q₂ :=
      Dvd.dvd.mul_left (Nat.dvd_of_mod_eq_zero h₂) _
    have hmul₁ : q₁.num.natAbs * 10 ^ decExp q₁ / q₁.den * q₁.den =
        q₁.num.natAbs * 10 ^ decExp q₁ := Nat.div_mul_cancel hd₁
    have hmul₂ : q₂.num.natAbs * 10 ^ decExp q₂ / q₂.den * q₂.den =
        q₂.num.natAbs * 10 ^ decExp q₂ := Nat.div_mul_cancel hd₂
    have hcross : (q₁.num.natAbs * q₂.den) * 10 ^ decExp q₁ =
        (q₂.num.natAbs * q₁.den) * 10 ^ decExp q₁ := by
      calc (q₁.num.natAbs * q₂.den) * 10 ^ decExp q₁
          = (q₁.num.natAbs * 10 ^ decExp q₁) * q₂.den := by ring
        _ = (q₁.num.natAbs * 10 ^ decExp q₁ / q₁.den * q₁.den) * q₂.den := by
              rw [hmul₁]
        _ = (q₂.num.natAbs * 10 ^ decExp q₂ / q₂.den * q₂.den) * q₁.den := by
              rw [hm]; ring
        _ = (q₂.num.natAbs * 10 ^ decExp q₂) * q₁.den := by rw [hmul₂]
        _ = (q₂.num.natAbs * q₁.den) * 10 ^ decExp q₂ := by ring
        _ = (q₂.num.natAbs * q₁.den) * 10 ^ decExp q₁ := by rw [hk]
    exact Nat.eq_of_mul_eq_mul_right (Nat.pos_pow_of_pos _ (by omega)) hcross
  have habs : q₁.num.natAbs * q₂.den = q₂.num.natAbs * q₁.den ∧
      (q₁ < 0 ↔ q₂ < 0) := by
    by_cases hs₁ : q₁ < 0 <;> by_cases hs₂ : q₂ < 0
    · rw [pyFloatStr_data_neg q₁ hs₁, pyFloatStr_data_neg q₂ hs₂] at hdata
      refine ⟨hmain trivial ?_, by simp [hs₁, hs₂]⟩
      exact List.tail_eq_of_cons_eq hdata
    · rw [pyFloatStr_data_neg q₁ hs₁, pyFloatStr_data_nonneg q₂ hs₂] at hdata
      exfalso
      cases hns : (natStr (q₂.num.natAbs * 10 ^ decExp q₂ / q₂.den /
          10 ^ decExp q₂)).data with
      | nil => exact natStr_ne_empty _ hns
      | cons c t =>
        rw [hns] at hdata
        simp only [List.cons_append, List.cons.injEq] at hdata
        have hcdig : 48 ≤ c.toNat ∧ c.toNat ≤ 57 := by
          refine natStr_digits
            (q₂.num.natAbs * 10 ^ decExp q₂ / q₂.den / 10 ^ decExp q₂) c ?_
          rw [hns]
          exact List.mem_cons_self c t
        have h45 : ('-' : Char).toNat = 45 := by decide
        rw [← hdata.1] at hcdig
        omega
    · rw [pyFloatStr_data_nonneg q₁ hs₁, pyFloatStr_data_neg q₂ hs₂] at hdata
      exfalso
      cases hns : (natStr (q₁.num.natAbs * 10 ^ decExp q₁ / q₁.den /
          10 ^ decExp q₁)).data with
      | nil => exact natStr_ne_empty _ hns
      | cons c t =>
        rw [hns] at hdata
        simp only [List.cons_append, List.cons.injEq] at hdata
        have hcdig : 48 ≤ c.toNat ∧ c.toNat ≤ 57 := by
          refine natStr_digits
            (q₁.num.natAbs * 10 ^ decExp q₁ / q₁.den / 10 ^ decExp q₁) c ?_
          rw [hns]
          exact List.mem_cons_self c t
        have h45 : ('-' : Char).toNat = 45 := by decide
        rw [hdata.1] at hcdig
        omega
    · rw [pyFloatStr_data_nonneg q₁ hs₁, pyFloatStr_data_nonneg q₂ hs₂] at hdata
      exact ⟨hmain trivial hdata, by simp [hs₁, hs₂]⟩
  have hZ : q₁.num * q₂.den = q₂.num * q₁.den := by
    by_cases hs : q₁ < 0
    · have hs₂ : q₂ < 0 := habs.2.mp hs
      have hn₁ : (q₁.num.natAbs : ℤ) = -q₁.num :=
        Int.ofNat_natAbs_of_nonpos (le_of_lt (Rat.num_neg.mpr hs))
      have hn₂ : (q₂.num.natAbs : ℤ) = -q₂.num :=
        Int.ofNat_natAbs_of_nonpos (le_of_lt (Rat.num_neg.mpr hs₂))
      have := congrArg (fun n : Nat => (n : ℤ)) habs.1
      simp only [Nat.cast_mul] at this
      rw [hn₁, hn₂] at this
      linarith
    · have hs₂ : ¬ q₂ < 0 := fun hh => hs (habs.2.mpr hh)
      have hn₁ : (q₁.num.natAbs : ℤ) = q₁.num :=
        Int.natAbs_of_nonneg (Rat.num_nonneg.mpr (le_of_not_lt hs))
      have hn₂ : (q₂.num.natAbs : ℤ) = q₂.num :=
        Int.natAbs_of_nonneg (Rat.num_nonneg.mpr (le_of_not_lt hs₂))
      have := congrArg (fun n : Nat => (n : ℤ)) habs.1
      simp only [Nat.cast_mul] at this
      rw [hn₁, hn₂] at this
      linarith
  have hden₁ : ((q₁.den : ℚ)) ≠ 0 := by
    exact_mod_cast Nat.pos_iff_ne_zero.mp q₁.den_pos
  have hden₂ : ((q₂.den : ℚ)) ≠ 0 := by
    exact_mod_cast Nat.pos_iff_ne_zero.mp q₂.den_pos
  rw [← Rat.num_div_den q₁, ← Rat.num_div_den q₂, div_eq_div_iff hden₁ hden₂]
  exact_mod_cast hZ

/-! ### Amount rendering: distinct decimal amounts render distinctly -/

/-- Python-falsy amounts: `None` and `0.0` (both render as `""`). -/
def amtFalsy (a : Option ℚ) : Prop := a = none ∨ a = some 0

/-- The amount stands for a decimal float value: its denominator
    divides `10 ^ decExp` (checkable: the remainder is zero). -/
def amtDecimal : Option ℚ → Prop
  | none => True
  | some q => 10 ^ decExp q % q.den = 0

theorem pyFloatStr_ne_empty (q : ℚ) : pyFloatStr q ≠ "" := by
  intro h
  have hd := congrArg String.data h
  have hnil : ("" : String).data = [] := rfl
  by_cases hs : q < 0
  · rw [pyFloatStr_data_neg q hs, hnil] at hd
    exact List.noConfusion hd
  · rw [pyFloatStr_data_nonneg q hs, hnil] at hd
    rcases List.append_eq_nil.mp hd with ⟨ha, _⟩
    exact natStr_ne_empty _ ha

theorem pyAmountStr_ne {a₁ a₂ : Option ℚ} (hd₁ : amtDecimal a₁)
    (hd₂ : amtDecimal a₂) (hne : a₁ ≠ a₂) (hf : ¬ (amtFalsy a₁ ∧ amtFalsy a₂)) :
    pyAmountStr a₁ ≠ pyAmountStr a₂ := by
  cases a₁ with
  | none =>
    cases a₂ with
    | none => exact absurd rfl hne
    | some q₂ =>
      have hq₂ : ¬ q₂ = 0 := by
        intro h0
        exact hf ⟨Or.inl rfl, Or.inr (by rw [h0])⟩
      have e₂ : pyAmountStr (some q₂) = pyFloatStr q₂ := by
        simp [pyAmountStr, hq₂]
      rw [e₂]
      exact fun hh => pyFloatStr_ne_empty q₂ hh.symm
  | some q₁ =>
    cases a₂ with
    | none =>
      have hq₁ : ¬ q₁ = 0 := by
        intro h0
        exact hf ⟨Or.inr (by rw [h0]), Or.inl rfl⟩
      have e₁ : pyAmountStr (some q₁) = pyFloatStr q₁ := by
        simp [pyAmountStr, hq₁]
      rw [e₁]
      exact pyFloatStr_ne_empty q₁
    | some q₂ =>
      have hq : q₁ ≠ q₂ := fun hh => hne (by rw [hh])
      by_cases h01 : q₁ = 0
      · have h02 : ¬ q₂ = 0 := fun h0 => hq (by rw [h01, h0])
        have e₁ : pyAmountStr (some q₁) = "" := by simp [pyAmountStr, h01]
        have e₂ : pyAmountStr (some q₂) = pyFloatStr q₂ := by
          simp [pyAmountStr, h02]
        rw [e₁, e₂]
        exact fun hh => pyFloatStr_ne_empty q₂ hh.symm
      · by_cases h02 : q₂ = 0
        · have e₁ : pyAmountStr (some q₁) = pyFloatStr q₁ := by
            simp [pyAmountStr, h01]
          have e₂ : pyAmountStr (some q₂) = "" := by simp [pyAmountStr, h02]
          rw [e₁, e₂]
          exact pyFloatStr_ne_empty q₁
        · have e₁ : pyAmountStr (some q₁) = pyFloatStr q₁ := by
            simp [pyAmountStr, h01]
          have e₂ : pyAmountStr (some q₂) = pyFloatStr q₂ := by
            simp [pyAmountStr, h02]
          rw [e₁, e₂]
          intro hh
          exact hq (pyFloatStr_inj hd₁ hd₂ hh)

/-! ### Changing one field changes the component string -/

theorem ingComponent_data (i : Ingredient) :
    (ingComponent i).data = (normName i.1).data ++
      ':' :: ((pyAmountStr i.2.1).data ++ ':' :: (pyUnitStr i.2.2).data) := by
  simp only [ingComponent, String.data_append, List.append_assoc]
  rfl

theorem ingComponent_ne_name {n₁ n₂ : String} {a : Option ℚ} {u : Option String}
    (h : normName n₁ ≠ normName n₂) :
    ingComponent (n₁, a, u) ≠ ingComponent (n₂, a, u) := by
  intro heq
  have hd := congrArg String.data heq
  rw [ingComponent_data, ingComponent_data] at hd
  exact h (String.ext (List.append_cancel_right hd))

theorem ingComponent_ne_amount {n : String} {a₁ a₂ : Option ℚ} {u : Option String}
    (h : pyAmountStr a₁ ≠ pyAmountStr a₂) :
    ingComponent (n, a₁, u) ≠ ingComponent (n, a₂, u) := by
  intro heq
  have hd := congrArg String.data heq
  rw [ingComponent_data, ingComponent_data] at hd
  have h1 := List.tail_eq_of_cons_eq (List.append_cancel_left hd)
  exact h (String.ext (List.append_cancel_right h1))

theorem ingComponent_ne_unit {n : String} {a : Option ℚ} {u₁ u₂ : Option String}
    (h : pyUnitStr u₁ ≠ pyUnitStr u₂) :
    ingComponent (n, a, u₁) ≠ ingComponent (n, a, u₂) := by
  intro heq
  have hd := congrArg String.data heq
  rw [ingComponent_data, ingComponent_data] at hd
  have h1 := List.tail_eq_of_cons_eq (List.append_cancel_left hd)
  have h2 := List.tail_eq_of_cons_eq (List.append_cancel_left h1)
  exact h (String.ext h2)

/-! ### Injectivity of the `|`-join on pipe-free component lists -/

theorem pyJoin_pipe_inj : ∀ {l₁ l₂ : List String}, l₁.length = l₂.length →
    (∀ a ∈ l₁, ('|' : Char) ∉ a.data) → (∀ a ∈ l₂, ('|' : Char) ∉ a.data) →
    pyJoin "|" l₁ = pyJoin "|" l₂ → l₁ = l₂ := by
  intro l₁
  induction l₁ with
  | nil =>
    intro l₂ hlen _ _ _
    cases l₂ with
    | nil => rfl
    | cons b bs => simp at hlen
  | cons a as ih =>
    intro l₂ hlen hp₁ hp₂ hj
    cases l₂ with
    | nil => simp at hlen
    | cons b bs =>
      cases as with
      | nil =>
        cases bs with
        | nil => rw [show pyJoin "|" [a] = a from rfl,
            show pyJoin "|" [b] = b from rfl] at hj; rw [hj]
        | cons b2 bs2 => simp at hlen
      | cons a2 as2 =>
        cases bs with
        | nil => simp at hlen
        | cons b2 bs2 =>
          have e₁ : pyJoin "|" (a :: a2 :: as2) =
            a ++ "|" ++ pyJoin "|" (a2 :: as2) := rfl
          have e₂ : pyJoin "|" (b :: b2 :: bs2) =
            b ++ "|" ++ pyJoin "|" (b2 :: bs2) := rfl
          rw [e₁, e₂] at hj
          have hd := congrArg String.data hj
          simp only [String.data_append, List.append_assoc] at hd
          have hd2 : a.data ++ '|' :: (pyJoin "|" (a2 :: as2)).data =
              b.data ++ '|' :: (pyJoin "|" (b2 :: bs2)).data := hd
          obtain ⟨hab, hrest⟩ := append_sep_inj
            (hp₁ a (List.mem_cons_self a _)) (hp₂ b (List.mem_cons_self b _)) hd2
          have htail := ih (by simpa using hlen : (a2 :: as2).length = (b2 :: bs2).length)
            (fun x hx => hp₁ x (List.mem_cons_of_mem a hx))
            (fun x hx => hp₂ x (List.mem_cons_of_mem b hx))
            (String.ext hrest)
          rw [String.ext hab, htail]

/-! ### A one-component change survives filtering, sorting, joining -/

theorem components_append (A B : List Ingredient) (i : Ingredient)
    (hne : i.1 ≠ "") :
    ((A ++ i :: B).filter (fun x => x.1 ≠ "")).map ingComponent =
      ((A.filter (fun x => x.1 ≠ "")).map ingComponent) ++
        ingComponent i :: ((B.filter (fun x => x.1 ≠ "")).map ingComponent) := by
  rw [List.filter_append, List.filter_cons_of_pos (by simpa using hne),
    List.map_append, List.map_cons]

theorem sortedComponents_append_ne {A B : List Ingredient} {i₁ i₂ : Ingredient}
    (h₁ : i₁.1 ≠ "") (h₂ : i₂.1 ≠ "")
    (hc : ingComponent i₁ ≠ ingComponent i₂) :
    sortedComponents (A ++ i₁ :: B) ≠ sortedComponents (A ++ i₂ :: B) := by
  intro heq
  unfold sortedComponents at heq
  rw [components_append A B i₁ h₁, components_append A B i₂ h₂] at heq
  have hp : (((A.filter (fun x => x.1 ≠ "")).map ingComponent) ++
      ingComponent i₁ :: ((B.filter (fun x => x.1 ≠ "")).map ingComponent)).Perm
        (((A.filter (fun x => x.1 ≠ "")).map ingComponent) ++
      ingComponent i₂ :: ((B.filter (fun x => x.1 ≠ "")).map ingComponent)) := by
    refine ((List.perm_insertionSort strLe _).symm.trans ?_).trans
      (List.perm_insertionSort strLe _)
    rw [heq]
  have hp2 := (List.perm_append_left_iff _).mp hp
  have h4 : (ingComponent i₁ ::ₘ
      (↑((B.filter (fun x => x.1 ≠ "")).map ingComponent) : Multiset String)) =
      ingComponent i₂ ::ₘ
        (↑((B.filter (fun x => x.1 ≠ "")).map ingComponent) : Multiset String) := by
    have h3 := Multiset.coe_eq_coe.mpr hp2
    simpa only [← Multiset.cons_coe] using h3
  exact hc ((Multiset.cons_inj_left _).mp h4)

theorem sortedComponents_pipe_free {l : List Ingredient}
    (hpf : ∀ i ∈ l, ('|' : Char) ∉ (ingComponent i).data) :
    ∀ a ∈ sortedComponents l, ('|' : Char) ∉ a.data := by
  intro a ha
  have ha2 := (List.perm_insertionSort strLe _).subset ha
  rcases List.mem_map.mp ha2 with ⟨i, hi, rfl⟩
  exact hpf i (List.mem_of_mem_filter hi)

theorem sortedComponents_length_append (A B : List Ingredient) (i : Ingredient)
    (hne : i.1 ≠ "") :
    (sortedComponents (A ++ i :: B)).length =
      ((A.filter (fun x => x.1 ≠ "")).map ingComponent).length + 1 +
        ((B.filter (fun x => x.1 ≠ "")).map ingComponent).length := by
  unfold sortedComponents
  rw [(List.perm_insertionSort strLe _).length_eq, components_append A B i hne]
  simp only [List.length_append, List.length_cons]
  omega

theorem fingerprint_data_ne {name : String} {A B : List Ingredient}
    {i₁ i₂ : Ingredient} (h₁ : i₁.1 ≠ "") (h₂ : i₂.1 ≠ "")
    (hpf : ∀ i ∈ A ++ B ++ [i₁, i₂], ('|' : Char) ∉ (ingComponent i).data)
    (hc : ingComponent i₁ ≠ ingComponent i₂) :
    fingerprint_data name (A ++ i₁ :: B) ≠ fingerprint_data name (A ++ i₂ :: B) := by
  intro heq
  have hd := congrArg String.data heq
  unfold fingerprint_data at hd
  simp only [String.data_append, List.append_assoc] at hd
  have hd2 : '|' :: (pyJoin "|" (sortedComponents (A ++ i₁ :: B))).data =
      '|' :: (pyJoin "|" (sortedComponents (A ++ i₂ :: B))).data :=
    List.append_cancel_left hd
  have hd3 := List.tail_eq_of_cons_eq hd2
  have hpf₁ : ∀ i ∈ A ++ i₁ :: B, ('|' : Char) ∉ (ingComponent i).data := by
    intro i hi
    rcases List.mem_append.mp hi with hi | hi
    · exact hpf i (by simp [hi])
    · rcases List.mem_cons.mp hi with hi | hi
      · rw [hi]; exact hpf i₁ (by simp)
      · exact hpf i (by simp [hi])
  have hpf₂ : ∀ i ∈ A ++ i₂ :: B, ('|' : Char) ∉ (ingComponent i).data := by
    intro i hi
    rcases List.mem_append.mp hi with hi | hi
    · exact hpf i (by simp [hi])
    · rcases List.mem_cons.mp hi with hi | hi
      · rw [hi]; exact hpf i₂ (by simp)
      · exact hpf i (by simp [hi])
  have hlen : (sortedComponents (A ++ i₁ :: B)).length =
      (sortedComponents (A ++ i₂ :: B)).length := by
    rw [sortedComponents_length_append A B i₁ h₁,
      sortedComponents_length_append A B i₂ h₂]
  have hlists := pyJoin_pipe_inj hlen
    (sortedComponents_pipe_free hpf₁) (sortedComponents_pipe_free hpf₂)
    (String.ext hd3)
  exact sortedComponents_append_ne h₁ h₂ hc hlists

/-! ### Claim C4 -/

/-- C4 is false as stated: changing an ingredient amount from `None`
    to `0.0` leaves the fingerprint unchanged, because the source's
    f-string `{ing[1] or ''}` renders the Python-falsy `0.0` exactly
    like `None` (as the empty string). -/
theorem claim_C4_counterexample :
    compute_recipe_fingerprint "x" [("a", none, some "u")] =
      compute_recipe_fingerprint "x" [("a", some 0, some "u")] := by decide

/-- C4 (amended): changing a single ingredient's field changes the
    normalized pre-hash string `fingerprint_data` (hence the MD5
    fingerprint short of an MD5 collision, which the spec does not
    require to be absent), provided: the raw ingredient names are
    non-empty, no component contains the `|` separator, and the change
    survives normalization - i.e. the names differ after
    lowercase+strip, or the units differ after lowercasing, or the
    amounts are decimal values not both in the Python-falsy set
    `{None, 0.0}` (which the code conflates, see the counterexample). -/
theorem claim_C4_single_field_change (name : String) (A B : List Ingredient)
    (n₁ n₂ : String) (a₁ a₂ : Option ℚ) (u₁ u₂ : Option String)
    (hn₁ : n₁ ≠ "") (hn₂ : n₂ ≠ "")
    (hpf : ∀ i ∈ A ++ B ++ [(n₁, a₁, u₁), (n₂, a₂, u₂)],
      ('|' : Char) ∉ (ingComponent i).data)
    (hdiff :
      (normName n₁ ≠ normName n₂ ∧ a₁ = a₂ ∧ u₁ = u₂) ∨
      (n₁ = n₂ ∧ amtDecimal a₁ ∧ amtDecimal a₂ ∧ a₁ ≠ a₂ ∧
        ¬ (amtFalsy a₁ ∧ amtFalsy a₂) ∧ u₁ = u₂) ∨
      (n₁ = n₂ ∧ a₁ = a₂ ∧ pyUnitStr u₁ ≠ pyUnitStr u₂)) :
    fingerprint_data name (A ++ (n₁, a₁, u₁) :: B) ≠
      fingerprint_data name (A ++ (n₂, a₂, u₂) :: B) := by
  have hc : ingComponent (n₁, a₁, u₁) ≠ ingComponent (n₂, a₂, u₂) := by
    rcases hdiff with ⟨hn, ha, hu⟩ | ⟨hn, hda, hdb, ha, hf, hu⟩ | ⟨hn, ha, hu⟩
    · subst ha; subst hu
      exact ingComponent_ne_name hn
    · subst hn; subst hu
      exact ingComponent_ne_amount (pyAmountStr_ne hda hdb ha hf)
    · subst hn; subst ha
      exact ingComponent_ne_unit hu
  exact fingerprint_data_ne hn₁ hn₂ hpf hc

theorem claim_C4_single_field_change_witness :
    fingerprint_data "x" ([] ++ ("a", some 1, some "u") :: []) ≠
      fingerprint_data "x" ([] ++ ("a", some 2, some "u") :: []) := by
  refine claim_C4_single_field_change "x" [] [] "a" "a" (some 1) (some 2)
    (some "u") (some "u") (by decide) (by decide) ?_ ?_
  · intro i hi
    simp only [List.nil_append, List.mem_cons, List.not_mem_nil, or_false] at hi
    rcases hi with rfl | rfl <;> decide
  · refine Or.inr (Or.inl ⟨rfl, ?_, ?_, by decide, ?_, rfl⟩)
    · show 10 ^ decExp 1 % (1 : ℚ).den = 0
      decide
    · show 10 ^ decExp 2 % (2 : ℚ).den = 0
      decide
    · show ¬ ((some (1 : ℚ) = none ∨ some (1 : ℚ) = some 0) ∧
        (some (2 : ℚ) = none ∨ some (2 : ℚ) = some 0))
      decide

end CocktailDup
